import Mathlib

/-!
# Verification of the BNFParserlib grammar-interpretation core

A shallow embedding of the library's data model and algorithms:

* the expression graph (`Expression`), parse trees (`ASTNode`), rules and
  grammars with first-match lookup (`getRule`);
* the memoised FIRST-set analyser (`computeFirst`) — translated without the
  memo table: entries are inserted into the cache only after a computation
  completes, so the cache never changes any result, it only avoids
  recomputation; recursion through `Symbol` is therefore modelled with a
  fuel parameter (`none` = the C++ recursion does not terminate);
* the recursive-descent matcher (`parseExpr` with the loop helpers
  `seqLoop`, `altLoop`, `repLoop`), also fuel-based, which additionally
  returns the ordered list of `update_error` events the run records;
* the two public entry points `parseLegacy` and `parseCtx`;
* the tokenizer (`tokNext` etc.) and the grammar builder (`addRule`,
  `buildGrammar`), fuel-based because the builder's term-reading loop is
  not structurally recursive.

Strings are modelled as `List Char`; byte casts `(unsigned char)c` are
modelled as `c.toNat % 256` (identical to the C++ for ASCII data, which is
all the concrete witnesses use).  The write-only partial-parsing
bookkeeping (`partialNodes`, `failures`) is not modelled: it never
influences match results, positions, or error reporting.

`ParseContext` and its `updateError` are declared in `AST.hpp`, which is
not part of the sources; `updateError` is modelled from the spec (see its
doc comment) and the context evolution of a run is the left fold of
`updateError` over the run's recorded events, exactly the sequence of
calls the matcher makes.
-/

namespace BNF

/-- The byte value of a character, as the C++ cast to unsigned char. -/
def charByte (c : Char) : Nat := c.toNat % 256

/-- Single-quote character, kept abstract to build literal descriptions. -/
def quoteCh : Char := Char.ofNat 39

/-- Double-quote character. -/
def dquoteCh : Char := Char.ofNat 34

/-- Character at a position of the input (0 when out of bounds, as the
C++ reads `hasChar ? input[pos] : 0`). -/
def charAt (input : List Char) (pos : Nat) : Char :=
  (input.get? pos).getD (Char.ofNat 0)

/-- Byte value at a position of the input. -/
def byteAt (input : List Char) (pos : Nat) : Nat :=
  charByte (charAt input pos)

/-- Expression nodes (Expression.hpp).  `charClass` stores the finalised
256-bit membership bitmap as a predicate on byte values.  Children lists
mirror the C++ `std::vector<Expression*>`: positions that can hold a null
pointer are `Option Expression`. -/
inductive Expression where
  | terminal (value : List Char)
  | symbol (name : List Char)
  | seq (children : List Expression)
  | alt (children : List (Option Expression))
  | opt (child : Option Expression)
  | rep (child : Option Expression)
  | charRange (start stop : Nat)
  | charClass (bitmap : Nat → Bool)

/-- Parse-tree node (AST): symbol label, matched text, children (the C++
vector may hold null pointers). -/
inductive ASTNode where
  | mk (symbol : List Char) (matched : List Char) (children : List (Option ASTNode))

def ASTNode.symbol : ASTNode → List Char
  | .mk s _ _ => s

def ASTNode.matched : ASTNode → List Char
  | .mk _ m _ => m

def ASTNode.children : ASTNode → List (Option ASTNode)
  | .mk _ _ c => c

/-- Matched text of a possibly-null node (the C++ guards each access with
an `if (node)`). -/
def ASTNode.matchedO : Option ASTNode → List Char
  | some n => n.matched
  | none => []

/-- The singleton child list the matcher builds from a possibly-null child
(`if (child) node->children.push_back(child)`). -/
def childWrap : Option ASTNode → List (Option ASTNode)
  | some c => [some c]
  | none => []

/-- A grammar rule: name and root expression (null when the body parsed to
nothing). -/
structure Rule where
  name : List Char
  rootExpr : Option Expression

/-- A grammar is the insertion-ordered rule list. -/
abbrev Grammar := List Rule

/-- Grammar::getRule — linear search, first match wins. -/
def getRule (g : Grammar) (name : List Char) : Option Rule :=
  g.find? (fun r => decide (r.name = name))

/-- BNFParser::stripQuotes. -/
def stripQuotes (s : List Char) : List Char :=
  if 2 ≤ s.length ∧
      ((s.headD (Char.ofNat 0) = quoteCh ∧ s.getLastD (Char.ofNat 0) = quoteCh) ∨
       (s.headD (Char.ofNat 0) = dquoteCh ∧ s.getLastD (Char.ofNat 0) = dquoteCh))
  then (s.drop 1).take (s.length - 2)
  else s

/-- FIRST information: set of possible first bytes (as a list, membership
is what matters) and nullability. -/
structure FirstInfo where
  chars : List Nat
  nullable : Bool

/-- BNFParser::mergeFirst. -/
def mergeFirst (dst src : FirstInfo) : FirstInfo :=
  ⟨dst.chars ++ src.chars, dst.nullable || src.nullable⟩

/-- The byte list of an inclusive range (empty when reversed, as the C++
loop `for (c = start; c <= end; ++c)` runs zero times). -/
def rangeChars (a b : Nat) : List Nat := List.range' a (b + 1 - a)

/-- The FIRST fold over sequence children (EXPR_SEQUENCE case of
computeFirst): merge child FIRSTs while they are nullable; the first
non-nullable child is merged and stops the fold with nullable = false. -/
def seqFirst (firstOf : Expression → Option FirstInfo) :
    List Expression → FirstInfo → Option FirstInfo
  | [], acc => some acc
  | c :: cs, acc =>
    match firstOf c with
    | none => none
    | some cf =>
      if cf.nullable then seqFirst firstOf cs (mergeFirst acc cf)
      else some ⟨(mergeFirst acc cf).chars, false⟩

/-- The FIRST fold over alternative children (EXPR_ALTERNATIVE case).  A
null child makes the C++ dereference a null pointer: modelled as `none`. -/
def altFirst (firstOf : Expression → Option FirstInfo) :
    List (Option Expression) → FirstInfo → Option FirstInfo
  | [], acc => some acc
  | none :: _, _ => none
  | some c :: cs, acc =>
    match firstOf c with
    | none => none
    | some cf => altFirst firstOf cs (mergeFirst acc cf)

/-- BNFParser::computeFirst, without the memo cache (see file header) and
with fuel for the recursion through Symbol references: `none` means the
C++ recursion never returns. -/
def computeFirst (g : Grammar) : Nat → Expression → Option FirstInfo
  | 0, _ => none
  | fuel + 1, e =>
    match e with
    | .terminal v =>
      let lit := stripQuotes v
      if lit.isEmpty then some ⟨[], true⟩
      else some ⟨[charByte (lit.headD (Char.ofNat 0))], false⟩
    | .symbol name =>
      match getRule g name with
      | some r =>
        match r.rootExpr with
        | some root => computeFirst g fuel root
        | none => some ⟨[], false⟩
      | none => some ⟨[], false⟩
    | .seq cs => seqFirst (computeFirst g fuel) cs ⟨[], true⟩
    | .alt cs => altFirst (computeFirst g fuel) cs ⟨[], false⟩
    | .opt child =>
      match child with
      | none => none
      | some c =>
        match computeFirst g fuel c with
        | none => none
        | some cf => some ⟨(mergeFirst ⟨[], true⟩ cf).chars, true⟩
    | .rep child =>
      match child with
      | none => none
      | some c =>
        match computeFirst g fuel c with
        | none => none
        | some cf => some ⟨(mergeFirst ⟨[], true⟩ cf).chars, true⟩
    | .charRange a b => some ⟨rangeChars a b, false⟩
    | .charClass bm => some ⟨(List.range 256).filter bm, false⟩

/-- An `update_error` call: position and description. -/
abbrev Event := Nat × List Char

/-- Description strings the matcher attaches to failures. -/
def nullDesc : List Char := "null expression".toList

def emptyTermDesc : List Char := "empty terminal".toList

def termDesc (lit : List Char) : List Char :=
  "terminal ".toList ++ [quoteCh] ++ lit ++ [quoteCh]

def undefDesc (name : List Char) : List Char :=
  "symbol <".toList ++ name ++ "> (undefined)".toList

def rangeDesc (a b : Nat) : List Char :=
  "character in range ".toList ++ [quoteCh, Char.ofNat a, quoteCh] ++
    "...".toList ++ [quoteCh, Char.ofNat b, quoteCh]

def classDesc : List Char := "character class".toList

/-- Synthetic node labels. -/
def seqSym : List Char := "<seq>".toList

def altSym : List Char := "<alt>".toList

def optSym : List Char := "<opt>".toList

def repSym : List Char := "<rep>".toList

def rangeSym : List Char := "<char-range>".toList

def classSym : List Char := "<char-class>".toList

/-- Result of one matcher call: success with the produced node (the C++
out-parameter, still null in one corner of parseAlternative) and the new
input position, or failure with the position the call leaves in `pos`.
Both carry the `update_error` events recorded during the call, in order. -/
inductive Outcome where
  | ok (node : Option ASTNode) (pos : Nat) (events : List Event)
  | fail (pos : Nat) (events : List Event)

/-- Loop of BNFParser::parseSequence: match children left to right,
accumulating child nodes and matched text; the first failing child aborts
(the caller restores the position). -/
inductive SeqOut where
  | ok (nodes : List (Option ASTNode)) (mat : List Char) (pos : Nat)
  | fail

def seqLoop (step : Expression → Nat → Option Outcome) :
    List Expression → Nat → List (Option ASTNode) → List Char →
    Option (SeqOut × List Event)
  | [], pos, nodes, mat => some (.ok nodes mat pos, [])
  | c :: cs, pos, nodes, mat =>
    match step c pos with
    | none => none
    | some (.fail _ evs) => some (.fail, evs)
    | some (.ok n p evs) =>
      match seqLoop step cs p (nodes ++ [n]) (mat ++ ASTNode.matchedO n) with
      | none => none
      | some (r, evs2) => some (r, evs ++ evs2)

/-- The FIRST-based skip test of BNFParser::parseAlternative: with a
lookahead byte, skip a non-nullable branch whose FIRST set misses the
byte or is empty; at end of input skip every non-nullable branch. -/
def altSkip (hasChar : Bool) (look : Nat) (fi : FirstInfo) : Bool :=
  if hasChar then
    (!fi.nullable && !(fi.chars.contains look)) ||
      (!fi.nullable && fi.chars.isEmpty)
  else !fi.nullable

/-- Accumulator of parseAlternative: current best node (an `<alt>` parent
created when a branch strictly improves the best position), best end
position, and whether any branch matched. -/
structure AltSt where
  best : Option ASTNode
  bestPos : Nat
  anyMatch : Bool

/-- Loop of BNFParser::parseAlternative.  Every branch is attempted from
the original position (the C++ restores `pos` after each branch).  A null
branch makes computeFirst dereference a null pointer: modelled `none`. -/
def altLoop (firstOf : Expression → Option FirstInfo)
    (step : Option Expression → Option Outcome) (hasChar : Bool) (look : Nat) :
    List (Option Expression) → AltSt → Option (AltSt × List Event)
  | [], st => some (st, [])
  | none :: _, _ => none
  | some c :: cs, st =>
    match firstOf c with
    | none => none
    | some fi =>
      if altSkip hasChar look fi then altLoop firstOf step hasChar look cs st
      else
        match step (some c) with
        | none => none
        | some (.ok bn p evs) =>
          let st' : AltSt :=
            if st.bestPos < p then
              ⟨some (.mk altSym (ASTNode.matchedO bn) [bn]), p, true⟩
            else ⟨st.best, st.bestPos, true⟩
          match altLoop firstOf step hasChar look cs st' with
          | none => none
          | some (stE, evs2) => some (stE, evs ++ evs2)
        | some (.fail _ evs) =>
          match altLoop firstOf step hasChar look cs st with
          | none => none
          | some (stE, evs2) => some (stE, evs ++ evs2)

/-- Loop of BNFParser::parseRepeat, with its own fuel (`none` = the C++
loop ran out of the model's fuel; the termination theorem shows a bound).
Breaks when the child fails (position restored), when a non-null child
node matched the empty string (position restored), when the child
succeeded with a null node (position kept), or after a successful
iteration that reached end of input. -/
def repLoop (step : Nat → Option Outcome) (len : Nat) :
    Nat → Nat → List (Option ASTNode) → List Char →
    Option ((List (Option ASTNode) × List Char × Nat) × List Event)
  | 0, _, _, _ => none
  | fuel + 1, pos, items, mat =>
    match step pos with
    | none => none
    | some (.fail _ evs) => some ((items, mat, pos), evs)
    | some (.ok it p evs) =>
      match it with
      | none => some ((items, mat, p), evs)
      | some n =>
        if n.matched.isEmpty then some ((items, mat, pos), evs)
        else if len ≤ p then some ((items ++ [some n], mat ++ n.matched, p), evs)
        else
          match repLoop step len fuel p (items ++ [some n]) (mat ++ n.matched) with
          | none => none
          | some (r, evs2) => some (r, evs ++ evs2)

/-- BNFParser::parseExpression and the per-kind matchers, fuel-based
(`none` = the C++ recursion does not terminate within the fuel). -/
def parseExpr (g : Grammar) : Nat → Option Expression → List Char → Nat → Option Outcome
  | 0, _, _, _ => none
  | _ + 1, none, _, pos => some (.fail pos [(pos, nullDesc)])
  | fuel + 1, some e, input, pos =>
    match e with
    | .terminal v =>
      let lit := stripQuotes v
      if lit.length = 0 then some (.fail pos [(pos, emptyTermDesc)])
      else if pos + lit.length ≤ input.length ∧ (input.drop pos).take lit.length = lit then
        some (.ok (some (.mk lit lit [])) (pos + lit.length) [])
      else some (.fail pos [(pos, termDesc lit)])
    | .symbol name =>
      match getRule g name with
      | none => some (.fail pos [(pos, undefDesc name)])
      | some r =>
        match parseExpr g fuel r.rootExpr input pos with
        | none => none
        | some (.fail _ evs) => some (.fail pos evs)
        | some (.ok child p evs) =>
          some (.ok (some (.mk name (ASTNode.matchedO child) (childWrap child))) p evs)
    | .seq cs =>
      match seqLoop (fun c q => parseExpr g fuel (some c) input q) cs pos [] [] with
      | none => none
      | some (.fail, evs) => some (.fail pos evs)
      | some (.ok nodes mat p, evs) => some (.ok (some (.mk seqSym mat nodes)) p evs)
    | .alt cs =>
      match altLoop (computeFirst g fuel) (fun c? => parseExpr g fuel c? input pos)
          (decide (pos < input.length)) (byteAt input pos) cs ⟨none, pos, false⟩ with
      | none => none
      | some (st, evs) =>
        if st.anyMatch then some (.ok st.best st.bestPos evs)
        else some (.fail pos evs)
    | .opt child =>
      match parseExpr g fuel child input pos with
      | none => none
      | some (.fail _ evs) => some (.ok (some (.mk optSym [] [])) pos evs)
      | some (.ok inside p evs) =>
        some (.ok (some (.mk optSym (ASTNode.matchedO inside) (childWrap inside))) p evs)
    | .rep child =>
      match repLoop (fun q => parseExpr g fuel child input q) input.length fuel pos [] [] with
      | none => none
      | some ((items, mat, p), evs) => some (.ok (some (.mk repSym mat items)) p evs)
    | .charRange a b =>
      if input.length ≤ pos then some (.fail pos [(pos, rangeDesc a b)])
      else if a ≤ byteAt input pos ∧ byteAt input pos ≤ b then
        some (.ok (some (.mk rangeSym [charAt input pos] [])) (pos + 1) [])
      else some (.fail pos [(pos, rangeDesc a b)])
    | .charClass bm =>
      if input.length ≤ pos then some (.fail pos [(pos, classDesc)])
      else if bm (byteAt input pos) then
        some (.ok (some (.mk classSym [charAt input pos] [])) (pos + 1) [])
      else some (.fail pos [(pos, classDesc)])

/-- The parse context (AST.hpp, absent from the sources): result fields
reset on each unified parse. -/
structure ParseContext where
  success : Bool
  ast : Option ASTNode
  consumed : Nat
  errorPos : Nat
  expected : List Char

/-- ParseContext::reset. -/
def ParseContext.reset : ParseContext := ⟨false, none, 0, 0, []⟩

/-- Modelled from the spec: `ParseContext::updateError` is declared in
AST.hpp, which is missing from the sources (only the matcher's call sites
are available).  The spec says the context "keeps the maximum pos seen
and the first description attached at that max": a strictly greater
position replaces both fields; at the current maximum only an empty
description slot is filled, so the first description recorded at that
maximum is kept. -/
def updateError (c : ParseContext) (pos : Nat) (desc : List Char) : ParseContext :=
  if c.errorPos < pos then { c with errorPos := pos, expected := desc }
  else if pos = c.errorPos ∧ c.expected = [] then { c with expected := desc }
  else c

/-- The context evolution of a run: fold `updateError` over the recorded
events in order (exactly the sequence of calls the matcher makes). -/
def applyEvents (c : ParseContext) (evs : List Event) : ParseContext :=
  evs.foldl (fun acc e => updateError acc e.1 e.2) c

/-- Description of the rule-not-found hard error of the unified parse. -/
def notFoundDesc (name : List Char) : List Char :=
  "rule <".toList ++ name ++ "> (not found in grammar)".toList

/-- The unified parse entry (void BNFParser::parse with a ParseContext). -/
def parseCtx (g : Grammar) (fuel : Nat) (ruleName input : List Char) :
    Option ParseContext :=
  match getRule g ruleName with
  | none =>
    some { ParseContext.reset with
            success := false, errorPos := 0, expected := notFoundDesc ruleName }
  | some r =>
    match parseExpr g fuel r.rootExpr input 0 with
    | none => none
    | some (.fail p evs) =>
      some { applyEvents ParseContext.reset evs with
              success := false, ast := none, consumed := p }
    | some (.ok node p evs) =>
      some { applyEvents ParseContext.reset evs with
              success := true, ast := node, consumed := p }

/-- The legacy parse entry (ASTNode* BNFParser::parse with a consumed
out-parameter, initialised to 0 and written only on success). -/
def parseLegacy (g : Grammar) (fuel : Nat) (ruleName input : List Char) :
    Option (Option ASTNode × Nat) :=
  match getRule g ruleName with
  | none => some (none, 0)
  | some r =>
    match parseExpr g fuel r.rootExpr input 0 with
    | none => none
    | some (.fail _ _) => some (none, 0)
    | some (.ok node p _) => some (node, p)

/-- The half-open slice input[a .. b) of a character list. -/
def slice (l : List Char) (a b : Nat) : List Char := (l.drop a).take (b - a)

/-! ## Tokenizer (BNFTokenizer.cpp) -/

/-- Token kinds (TOK_END is `eof`, `end` being reserved in Lean). -/
inductive TokType where
  | symbol | terminal | word | hex | pipe
  | lbrace | rbrace | lbracket | rbracket | lparen | rparen
  | caret | ellipsis | eof
deriving DecidableEq

/-- A token: kind and originating text. -/
structure Token where
  type : TokType
  value : List Char

/-- Tokenizer cursor: the rule body text and the current position. -/
structure TokSt where
  text : List Char
  pos : Nat

/-- Iterated advance with an explicit step budget (the C++ while loop
advances at most text.length - pos times, which the wrapper below
provides exactly). -/
def scanWhileAux (text : List Char) (cond : Char → Bool) : Nat → Nat → Nat
  | 0, pos => pos
  | k + 1, pos =>
    if pos < text.length ∧ cond (charAt text pos) then
      scanWhileAux text cond k (pos + 1)
    else pos

/-- Advance the position while the character under it satisfies `cond`. -/
def scanWhile (text : List Char) (cond : Char → Bool) (pos : Nat) : Nat :=
  scanWhileAux text cond (text.length + 1 - pos) pos

/-- BNFTokenizer::skipSpaces (space and tab only). -/
def skipSpaces (s : TokSt) : TokSt :=
  ⟨s.text, scanWhile s.text (fun c => c = ' ' || c = '\t') s.pos⟩

/-- The C++ isspace set used by parseWord. -/
def isSpaceC (c : Char) : Bool :=
  c = ' ' || c = '\t' || c = '\n' || c = Char.ofNat 11 || c = Char.ofNat 12 || c = '\r'

/-- The characters that stop BNFTokenizer::parseWord. -/
def wordStop (c : Char) : Bool :=
  isSpaceC c || c = '|' || c = '{' || c = '}' || c = '[' || c = ']' ||
    c = '(' || c = ')' || c = '^' || c = '.'

/-- BNFTokenizer::isEllipsis. -/
def isEllipsis (s : TokSt) : Bool :=
  s.pos + 2 < s.text.length && charAt s.text s.pos = '.' &&
    charAt s.text (s.pos + 1) = '.' && charAt s.text (s.pos + 2) = '.'

/-- BNFTokenizer::parseSymbol: consume through the closing angle bracket,
keeping the brackets in the value. -/
def tokSymbol (s : TokSt) : Token × TokSt :=
  let e := scanWhile s.text (fun c => c ≠ '>') (s.pos + 1)
  let e2 := if e < s.text.length then e + 1 else e
  (⟨.symbol, slice s.text s.pos e2⟩, ⟨s.text, e2⟩)

/-- BNFTokenizer::parseTerminal: consume to the matching quote, value is
the content without the quotes (possibly empty). -/
def tokTerminal (s : TokSt) : Token × TokSt :=
  let q := charAt s.text s.pos
  let e := scanWhile s.text (fun c => c ≠ q) (s.pos + 1)
  let e2 := if e < s.text.length then e + 1 else e
  (⟨.terminal, slice s.text (s.pos + 1) e⟩, ⟨s.text, e2⟩)

/-- Hexadecimal digit test (C++ isxdigit). -/
def isHexDigit (c : Char) : Bool :=
  ('0' ≤ c && c ≤ '9') || ('a' ≤ c && c ≤ 'f') || ('A' ≤ c && c ≤ 'F')

/-- BNFTokenizer::parseHex: the 0x sign plus all following hex digits. -/
def tokHex (s : TokSt) : Token × TokSt :=
  let e := scanWhile s.text isHexDigit (s.pos + 2)
  (⟨.hex, slice s.text s.pos e⟩, ⟨s.text, e⟩)

/-- BNFTokenizer::parseWord: consume to whitespace or a special character;
the value (and the advance) may be empty. -/
def tokWord (s : TokSt) : Token × TokSt :=
  let e := scanWhile s.text (fun c => !wordStop c) s.pos
  (⟨.word, slice s.text s.pos e⟩, ⟨s.text, e⟩)

/-- BNFTokenizer::next. -/
def tokNext (s0 : TokSt) : Token × TokSt :=
  let s := skipSpaces s0
  if s.text.length ≤ s.pos then (⟨.eof, []⟩, s)
  else
    let c := charAt s.text s.pos
    if c = '<' then tokSymbol s
    else if c = quoteCh || c = dquoteCh then tokTerminal s
    else if c = '.' && isEllipsis s then (⟨.ellipsis, "...".toList⟩, ⟨s.text, s.pos + 3⟩)
    else if c = '0' && s.pos + 1 < s.text.length &&
        (charAt s.text (s.pos + 1) = 'x' || charAt s.text (s.pos + 1) = 'X') then tokHex s
    else if c = '{' then (⟨.lbrace, "\x7b".toList⟩, ⟨s.text, s.pos + 1⟩)
    else if c = '}' then (⟨.rbrace, "\x7d".toList⟩, ⟨s.text, s.pos + 1⟩)
    else if c = '[' then (⟨.lbracket, "[".toList⟩, ⟨s.text, s.pos + 1⟩)
    else if c = ']' then (⟨.rbracket, "]".toList⟩, ⟨s.text, s.pos + 1⟩)
    else if c = '(' then (⟨.lparen, "(".toList⟩, ⟨s.text, s.pos + 1⟩)
    else if c = ')' then (⟨.rparen, ")".toList⟩, ⟨s.text, s.pos + 1⟩)
    else if c = '^' then (⟨.caret, "^".toList⟩, ⟨s.text, s.pos + 1⟩)
    else if c = '|' then (⟨.pipe, "|".toList⟩, ⟨s.text, s.pos + 1⟩)
    else tokWord s

/-- BNFTokenizer::peek — the token of `next` without moving the cursor. -/
def tokPeek (s : TokSt) : Token := (tokNext s).1

/-! ## Grammar builder (Grammar.cpp) -/

/-- Numeric value of one hex digit. -/
def hexDigitVal (c : Char) : Nat :=
  if '0' ≤ c ∧ c ≤ '9' then c.toNat - '0'.toNat
  else if 'a' ≤ c ∧ c ≤ 'f' then c.toNat - 'a'.toNat + 10
  else if 'A' ≤ c ∧ c ≤ 'F' then c.toNat - 'A'.toNat + 10
  else 0

/-- Grammar::tokenToChar: first byte of a terminal's content (0 when
empty), or the hex value after the 0x sign truncated to 8 bits. -/
def tokenToChar (t : Token) : Nat :=
  if t.type = .terminal then
    match t.value with
    | [] => 0
    | c :: _ => charByte c
  else if t.type = .hex then
    ((t.value.drop 2).foldl (fun v c => v * 16 + hexDigitVal c) 0) % 256
  else 0

/-- The bitmap update of Grammar::parseCharClass for a range item: set
every byte of the inclusive range, swapping the bounds when reversed. -/
def classAddRange (bm : Nat → Bool) (a b : Nat) : Nat → Bool :=
  if a ≤ b then fun c => bm c || (decide (a ≤ c) && decide (c ≤ b))
  else fun c => bm c || (decide (b ≤ c) && decide (c ≤ a))

/-- The bitmap update for a single character item. -/
def classAddChar (bm : Nat → Bool) (a : Nat) : Nat → Bool :=
  fun c => bm c || decide (c = a)

mutual

/-- Grammar::parseExpression: alternatives separated by pipes.  All
builder functions are fuel-based (`none` = the C++ does not terminate)
and return the built node — possibly null, as the C++ returns
`Expression*` — together with the advanced tokenizer state. -/
def parseExpressionB : Nat → TokSt → Option (Option Expression × TokSt)
  | 0, _ => none
  | fuel + 1, s =>
    match parseSequenceB fuel s with
    | none => none
    | some (left, s1) =>
      if (tokPeek s1).type = .pipe then
        match altLoopB fuel s1 [left] with
        | none => none
        | some (children, s2) =>
          match children with
          | [single] => some (single, s2)
          | _ => some (some (.alt children), s2)
      else some (left, s1)
termination_by structural fuel => fuel

/-- The pipe-consuming loop of Grammar::parseExpression. -/
def altLoopB : Nat → TokSt → List (Option Expression) → Option (List (Option Expression) × TokSt)
  | 0, _, _ => none
  | fuel + 1, s, acc =>
    if (tokPeek s).type = .pipe then
      match parseSequenceB fuel (tokNext s).2 with
      | none => none
      | some (right, s2) => altLoopB fuel s2 (acc ++ [right])
    else some (acc, s)
termination_by structural fuel => fuel

/-- Grammar::parseSequence: terms until end, pipe or a closing bracket;
null for an empty sequence, the single child alone, else a Sequence. -/
def parseSequenceB : Nat → TokSt → Option (Option Expression × TokSt)
  | 0, _ => none
  | fuel + 1, s =>
    match seqLoopB fuel s [] with
    | none => none
    | some (children, s2) =>
      match children with
      | [] => some (none, s2)
      | [c] => some (some c, s2)
      | _ => some (some (.seq children), s2)
termination_by structural fuel => fuel

/-- The term-reading loop of Grammar::parseSequence (only non-null terms
are kept). -/
def seqLoopB : Nat → TokSt → List Expression → Option (List Expression × TokSt)
  | 0, _, _ => none
  | fuel + 1, s, acc =>
    let t := tokPeek s
    if t.type = .eof ∨ t.type = .pipe ∨ t.type = .rbrace ∨ t.type = .rbracket then
      some (acc, s)
    else
      match parseTermB fuel s with
      | none => none
      | some (term, s2) =>
        match term with
        | some e => seqLoopB fuel s2 (acc ++ [e])
        | none => seqLoopB fuel s2 acc
termination_by structural fuel => fuel

/-- Grammar::parseTerm: repetition braces, optional brackets, else a
factor.  The closing token is consumed whether or not it matches (the
C++ only logs the mismatch). -/
def parseTermB : Nat → TokSt → Option (Option Expression × TokSt)
  | 0, _ => none
  | fuel + 1, s =>
    let t := tokPeek s
    if t.type = .lbrace then
      match parseExpressionB fuel (tokNext s).2 with
      | none => none
      | some (inside, s2) => some (some (.rep inside), (tokNext s2).2)
    else if t.type = .lbracket then
      match parseExpressionB fuel (tokNext s).2 with
      | none => none
      | some (inside, s2) => some (some (.opt inside), (tokNext s2).2)
    else parseFactorB fuel s
termination_by structural fuel => fuel

/-- Grammar::parseFactor: character classes, symbols, terminals and
character ranges; a bounds-reversed range is stored exactly as written. -/
def parseFactorB : Nat → TokSt → Option (Option Expression × TokSt)
  | 0, _ => none
  | fuel + 1, s =>
    match tokNext s with
    | (t, s1) =>
      if t.type = .lparen then parseCharClassB fuel s1
      else if t.type = .terminal ∨ t.type = .hex then
        if (tokPeek s1).type = .ellipsis then
          match tokNext (tokNext s1).2 with
          | (e2, s3) =>
            if e2.type = .terminal ∨ e2.type = .hex then
              some (some (.charRange (tokenToChar t) (tokenToChar e2)), s3)
            else some (none, s3)
        else some (some (.terminal t.value), s1)
      else if t.type = .symbol then some (some (.symbol t.value), s1)
      else if t.type = .word then some (some (.terminal t.value), s1)
      else some (none, s1)

/-- Grammar::parseCharClass, after the opening parenthesis: optional
caret, then characters and ranges accumulated into the bitmap, inverted
at the end when the caret was present. -/
def parseCharClassB : Nat → TokSt → Option (Option Expression × TokSt)
  | 0, _ => none
  | fuel + 1, s =>
    let (isExcl, s1) :=
      if (tokPeek s).type = .caret then (true, (tokNext s).2) else (false, s)
    match classLoopB fuel s1 (fun _ => false) with
    | none => none
    | some (none, s2) => some (none, s2)
    | some (some bm, s2) =>
      some (some (.charClass (if isExcl then fun c => !bm c else bm)), s2)

/-- The item loop of Grammar::parseCharClass. -/
def classLoopB : Nat → TokSt → (Nat → Bool) → Option (Option (Nat → Bool) × TokSt)
  | 0, _, _ => none
  | fuel + 1, s, bm =>
    let t := tokPeek s
    if t.type = .rparen then some (some bm, (tokNext s).2)
    else if t.type = .eof then some (none, s)
    else if t.type = .terminal ∨ t.type = .hex then
      let s1 := (tokNext s).2
      if (tokPeek s1).type = .ellipsis then
        match tokNext (tokNext s1).2 with
        | (e2, s3) =>
          if e2.type = .terminal ∨ e2.type = .hex then
            classLoopB fuel s3 (classAddRange bm (tokenToChar t) (tokenToChar e2))
          else some (none, s3)
      else classLoopB fuel s1 (classAddChar bm (tokenToChar t))
    else some (none, s)

termination_by structural fuel => fuel
end

/-- Index of the first occurrence of the rule separator in the rule text. -/
def findSep : List Char → Option Nat
  | [] => none
  | c :: rest =>
    if (c :: rest).take 3 = "::=".toList then some 0
    else (findSep rest).map (· + 1)

/-- The space trimming Grammar::addRule applies to the left-hand side. -/
def trimSpaces (s : List Char) : List Char :=
  ((s.dropWhile (fun c => c = ' ')).reverse.dropWhile (fun c => c = ' ')).reverse

/-- Grammar::addRule: split at the separator, trim the name, build the
body, append the rule.  A rule without a separator is logged and dropped;
`none` means the body build does not terminate. -/
def addRule (fuel : Nat) (g : Grammar) (ruleText : List Char) : Option Grammar :=
  match findSep ruleText with
  | none => some g
  | some i =>
    let lhs := trimSpaces (ruleText.take i)
    let rhs := ruleText.drop (i + 3)
    match parseExpressionB fuel ⟨rhs, 0⟩ with
    | none => none
    | some (root, _) => some (g ++ [⟨lhs, root⟩])

/-- A grammar built by a sequence of addRule calls. -/
def buildGrammar (fuel : Nat) (texts : List (List Char)) : Option Grammar :=
  texts.foldlM (addRule fuel) []

/-! ## Slice arithmetic -/

theorem slice_refl (l : List Char) (a : Nat) : slice l a a = [] := by
  simp [slice]

theorem slice_append (l : List Char) {a b c : Nat} (hab : a ≤ b) (hbc : b ≤ c) :
    slice l a b ++ slice l b c = slice l a c := by
  unfold slice
  have hc : c - a = (b - a) + (c - b) := by omega
  have hb : a + (b - a) = b := by omega
  rw [hc, List.take_add, List.drop_drop, hb]

theorem slice_one (l : List Char) {a : Nat} (h : a < l.length) :
    slice l a (a + 1) = [charAt l a] := by
  unfold slice charAt
  have h1 : a + 1 - a = 1 := by omega
  rw [h1, List.take_one_drop_eq_of_lt_length h]
  simp [List.get?_eq_getElem?, List.getElem?_eq_getElem h]

/-- The matched-text invariant of one matcher result: success advances the
position within bounds and the node's matched text is exactly the input
slice between the entry and exit positions; failure leaves the position
at the entry value. -/
def OkSpan (input : List Char) (pos : Nat) (r : Option Outcome) : Prop :=
  (∀ n p evs, r = some (.ok n p evs) →
    pos ≤ p ∧ p ≤ input.length ∧ ASTNode.matchedO n = slice input pos p) ∧
  (∀ p evs, r = some (.fail p evs) → p = pos)

theorem seqLoop_span {input : List Char} {step : Expression → Nat → Option Outcome}
    (hs : ∀ c pos, pos ≤ input.length → OkSpan input pos (step c pos)) :
    ∀ (cs : List Expression) (pos : Nat) (nodes : List (Option ASTNode)) (mat : List Char),
      pos ≤ input.length →
      ∀ nodes2 mat2 p evs, seqLoop step cs pos nodes mat = some (.ok nodes2 mat2 p, evs) →
      pos ≤ p ∧ p ≤ input.length ∧ mat2 = mat ++ slice input pos p := by
  intro cs
  induction cs with
  | nil =>
    intro pos nodes mat hpos nodes2 mat2 p evs h
    simp only [seqLoop, Option.some.injEq, Prod.mk.injEq] at h
    obtain ⟨h1, -⟩ := h
    cases h1
    simp [slice_refl]
    exact hpos
  | cons c cs ih =>
    intro pos nodes mat hpos nodes2 mat2 p evs h
    rw [seqLoop] at h
    cases hstep : step c pos with
    | none => rw [hstep] at h; exact absurd h (by simp)
    | some r =>
      cases r with
      | fail q evs1 =>
        rw [hstep] at h
        simp only [Option.some.injEq, Prod.mk.injEq] at h
        exact absurd h.1 (by simp)
      | ok n q evs1 =>
        rw [hstep] at h
        dsimp only at h
        cases hrec : seqLoop step cs q (nodes ++ [n]) (mat ++ ASTNode.matchedO n) with
        | none => rw [hrec] at h; exact absurd h (by simp)
        | some pr =>
          obtain ⟨r2, evs2⟩ := pr
          rw [hrec] at h
          simp only [Option.some.injEq, Prod.mk.injEq] at h
          obtain ⟨hr2, -⟩ := h
          cases hr2
          have hq := (hs c pos hpos).1 n q evs1 hstep
          have hrest := ih q (nodes ++ [n]) (mat ++ ASTNode.matchedO n) hq.2.1
            nodes2 mat2 p evs2 hrec
          refine ⟨le_trans hq.1 hrest.1, hrest.2.1, ?_⟩
          rw [hrest.2.2, hq.2.2, List.append_assoc,
            slice_append input hq.1 hrest.1]

theorem okSpan_none (input : List Char) (pos : Nat) : OkSpan input pos none := by
  constructor
  · intro n p evs h; simp at h
  · intro p evs h; simp at h

theorem okSpan_fail (input : List Char) (pos : Nat) (evs : List Event) :
    OkSpan input pos (some (.fail pos evs)) := by
  constructor
  · intro n p e h; simp at h
  · intro p e h
    simp only [Option.some.injEq, Outcome.fail.injEq] at h
    exact h.1.symm

theorem okSpan_ok (input : List Char) (pos : Nat) {n : Option ASTNode} {p : Nat}
    (evs : List Event) (h1 : pos ≤ p) (h2 : p ≤ input.length)
    (h3 : ASTNode.matchedO n = slice input pos p) :
    OkSpan input pos (some (.ok n p evs)) := by
  constructor
  · intro n2 p2 e h
    simp only [Option.some.injEq, Outcome.ok.injEq] at h
    obtain ⟨hn, hp, -⟩ := h
    exact hn ▸ hp ▸ ⟨h1, h2, h3⟩
  · intro p2 e h; simp at h

theorem altLoop_span {input : List Char} {firstOf : Expression → Option FirstInfo}
    {step : Option Expression → Option Outcome} {hasChar : Bool} {look : Nat} {pos : Nat}
    (hs : ∀ c?, OkSpan input pos (step c?)) :
    ∀ (cs : List (Option Expression)) (st : AltSt),
      pos ≤ st.bestPos → st.bestPos ≤ input.length →
      ASTNode.matchedO st.best = slice input pos st.bestPos →
      ∀ st2 evs, altLoop firstOf step hasChar look cs st = some (st2, evs) →
      pos ≤ st2.bestPos ∧ st2.bestPos ≤ input.length ∧
        ASTNode.matchedO st2.best = slice input pos st2.bestPos := by
  intro cs
  induction cs with
  | nil =>
    intro st h1 h2 h3 st2 evs h
    simp only [altLoop, Option.some.injEq, Prod.mk.injEq] at h
    obtain ⟨h4, -⟩ := h
    exact h4 ▸ ⟨h1, h2, h3⟩
  | cons c? cs ih =>
    intro st h1 h2 h3 st2 evs h
    cases c? with
    | none => simp [altLoop] at h
    | some c =>
      rw [altLoop] at h
      cases hfi : firstOf c with
      | none => rw [hfi] at h; simp at h
      | some fi =>
        rw [hfi] at h
        dsimp only at h
        by_cases hskip : altSkip hasChar look fi = true
        · rw [if_pos hskip] at h
          exact ih st h1 h2 h3 st2 evs h
        · rw [if_neg hskip] at h
          cases hstep : step (some c) with
          | none => rw [hstep] at h; simp at h
          | some r =>
            rw [hstep] at h
            cases r with
            | ok bn p evs1 =>
              dsimp only at h
              cases hrec : altLoop firstOf step hasChar look cs
                  (if st.bestPos < p then
                    ⟨some (.mk altSym (ASTNode.matchedO bn) [bn]), p, true⟩
                  else ⟨st.best, st.bestPos, true⟩) with
              | none => rw [hrec] at h; simp at h
              | some pr =>
                obtain ⟨stE, evs2⟩ := pr
                rw [hrec] at h
                simp only [Option.some.injEq, Prod.mk.injEq] at h
                obtain ⟨hst, -⟩ := h
                subst hst
                have hb := (hs (some c)).1 bn p evs1 hstep
                by_cases hcmp : st.bestPos < p
                · rw [if_pos hcmp] at hrec
                  exact ih _ hb.1 hb.2.1 (by simpa [ASTNode.matchedO, ASTNode.matched]
                    using hb.2.2) _ evs2 hrec
                · rw [if_neg hcmp] at hrec
                  exact ih ⟨st.best, st.bestPos, true⟩ h1 h2 h3 _ evs2 hrec
            | fail q evs1 =>
              dsimp only at h
              cases hrec : altLoop firstOf step hasChar look cs st with
              | none => rw [hrec] at h; simp at h
              | some pr =>
                obtain ⟨stE, evs2⟩ := pr
                rw [hrec] at h
                simp only [Option.some.injEq, Prod.mk.injEq] at h
                obtain ⟨hst, -⟩ := h
                subst hst
                exact ih st h1 h2 h3 _ evs2 hrec

theorem repLoop_span {input : List Char} {step : Nat → Option Outcome}
    (hs : ∀ q, q ≤ input.length → OkSpan input q (step q)) :
    ∀ (fuel : Nat) (pos : Nat) (items : List (Option ASTNode)) (mat : List Char),
      pos ≤ input.length →
      ∀ items2 mat2 p evs,
        repLoop step input.length fuel pos items mat = some ((items2, mat2, p), evs) →
        pos ≤ p ∧ p ≤ input.length ∧ mat2 = mat ++ slice input pos p := by
  intro fuel
  induction fuel with
  | zero => intro pos items mat hpos items2 mat2 p evs h; simp [repLoop] at h
  | succ f ih =>
    intro pos items mat hpos items2 mat2 p evs h
    rw [repLoop] at h
    cases hstep : step pos with
    | none => rw [hstep] at h; simp at h
    | some r =>
      rw [hstep] at h
      cases r with
      | fail q evs1 =>
        simp only [Option.some.injEq, Prod.mk.injEq] at h
        obtain ⟨⟨-, hm, hp⟩, -⟩ := h
        subst hp
        exact ⟨le_refl pos, hpos, by simp [slice_refl, ← hm]⟩
      | ok it q evs1 =>
        dsimp only at h
        cases it with
        | none =>
          dsimp only at h
          simp only [Option.some.injEq, Prod.mk.injEq] at h
          obtain ⟨⟨hi, hm, hp⟩, -⟩ := h
          have hb := (hs pos hpos).1 none q evs1 hstep
          subst hp
          exact ⟨hb.1, hb.2.1, by
            rw [← hm]
            have : slice input pos q = [] := hb.2.2.symm
            simp [this]⟩
        | some n =>
          dsimp only at h
          by_cases hempty : n.matched.isEmpty = true
          · rw [if_pos hempty] at h
            simp only [Option.some.injEq, Prod.mk.injEq] at h
            obtain ⟨⟨-, hm, hp⟩, -⟩ := h
            subst hp
            exact ⟨le_refl pos, hpos, by simp [slice_refl, ← hm]⟩
          · rw [if_neg hempty] at h
            have hb := (hs pos hpos).1 (some n) q evs1 hstep
            by_cases hend : input.length ≤ q
            · rw [if_pos hend] at h
              simp only [Option.some.injEq, Prod.mk.injEq] at h
              obtain ⟨⟨-, hm, hp⟩, -⟩ := h
              subst hp
              refine ⟨hb.1, hb.2.1, ?_⟩
              rw [← hm]
              have : ASTNode.matchedO (some n) = n.matched := rfl
              rw [this] at hb
              rw [hb.2.2]
            · rw [if_neg hend] at h
              cases hrec : repLoop step input.length f q (items ++ [some n])
                  (mat ++ n.matched) with
              | none => rw [hrec] at h; simp at h
              | some pr =>
                obtain ⟨r2, evs2⟩ := pr
                rw [hrec] at h
                simp only [Option.some.injEq, Prod.mk.injEq] at h
                obtain ⟨hr2, -⟩ := h
                subst hr2
                have hrest := ih q (items ++ [some n]) (mat ++ n.matched) hb.2.1
                  items2 mat2 p evs2 hrec
                refine ⟨le_trans hb.1 hrest.1, hrest.2.1, ?_⟩
                have : ASTNode.matchedO (some n) = n.matched := rfl
                rw [this] at hb
                rw [hrest.2.2, hb.2.2, List.append_assoc,
                  slice_append input hb.1 hrest.1]

/-- The master invariant of the matcher: from any in-bounds position,
success stays in bounds and produces the exact input slice as matched
text, and failure leaves the position where it was. -/
theorem parse_span (g : Grammar) (input : List Char) :
    ∀ (fuel : Nat) (e? : Option Expression) (pos : Nat), pos ≤ input.length →
      OkSpan input pos (parseExpr g fuel e? input pos) := by
  intro fuel
  induction fuel with
  | zero =>
    intro e? pos hpos
    rw [parseExpr]
    exact okSpan_none input pos
  | succ f ih =>
    intro e? pos hpos
    cases e? with
    | none =>
      rw [parseExpr]
      exact okSpan_fail input pos _
    | some e =>
      cases e with
      | terminal v =>
        rw [parseExpr]
        by_cases h0 : (stripQuotes v).length = 0
        · rw [if_pos h0]
          exact okSpan_fail input pos _
        · rw [if_neg h0]
          by_cases hm : pos + (stripQuotes v).length ≤ input.length ∧
              (input.drop pos).take (stripQuotes v).length = stripQuotes v
          · rw [if_pos hm]
            refine okSpan_ok input pos _ (Nat.le_add_right pos _) hm.1 ?_
            show stripQuotes v = slice input pos (pos + (stripQuotes v).length)
            unfold slice
            rw [Nat.add_sub_cancel_left, hm.2]
          · rw [if_neg hm]
            exact okSpan_fail input pos _
      | symbol name =>
        rw [parseExpr]
        cases hr : getRule g name with
        | none =>
          dsimp only
          exact okSpan_fail input pos _
        | some r =>
          dsimp only
          cases hsub : parseExpr g f r.rootExpr input pos with
          | none => exact okSpan_none input pos
          | some r2 =>
            cases r2 with
            | fail q evs => exact okSpan_fail input pos _
            | ok child p evs =>
              have hc := (ih r.rootExpr pos hpos).1 child p evs hsub
              exact okSpan_ok input pos _ hc.1 hc.2.1 hc.2.2
      | seq cs =>
        rw [parseExpr]
        cases hsub : seqLoop (fun c q => parseExpr g f (some c) input q) cs pos [] [] with
        | none => exact okSpan_none input pos
        | some pr =>
          obtain ⟨r2, evs⟩ := pr
          cases r2 with
          | fail => exact okSpan_fail input pos _
          | ok nodes mat p =>
            have hsq := seqLoop_span (fun c q hq => ih (some c) q hq) cs pos [] []
              hpos nodes mat p evs hsub
            refine okSpan_ok input pos _ hsq.1 hsq.2.1 ?_
            show mat = slice input pos p
            simpa using hsq.2.2
      | alt cs =>
        rw [parseExpr]
        cases hsub : altLoop (computeFirst g f) (fun c? => parseExpr g f c? input pos)
            (decide (pos < input.length)) (byteAt input pos) cs ⟨none, pos, false⟩ with
        | none => exact okSpan_none input pos
        | some pr =>
          obtain ⟨st, evs⟩ := pr
          have hinv := altLoop_span (fun c? => ih c? pos hpos) cs ⟨none, pos, false⟩
            (le_refl pos) hpos (by simp [ASTNode.matchedO, slice_refl]) st evs hsub
          dsimp only
          by_cases hany : st.anyMatch = true
          · rw [if_pos hany]
            exact okSpan_ok input pos _ hinv.1 hinv.2.1 hinv.2.2
          · rw [if_neg hany]
            exact okSpan_fail input pos _
      | opt child =>
        rw [parseExpr]
        cases hsub : parseExpr g f child input pos with
        | none => exact okSpan_none input pos
        | some r2 =>
          cases r2 with
          | fail q evs =>
            refine okSpan_ok input pos _ (le_refl pos) hpos ?_
            show ([] : List Char) = slice input pos pos
            rw [slice_refl]
          | ok inside p evs =>
            have hc := (ih child pos hpos).1 inside p evs hsub
            exact okSpan_ok input pos _ hc.1 hc.2.1 hc.2.2
      | rep child =>
        rw [parseExpr]
        cases hsub : repLoop (fun q => parseExpr g f child input q) input.length f pos [] [] with
        | none => exact okSpan_none input pos
        | some pr =>
          obtain ⟨⟨items, mat, p⟩, evs⟩ := pr
          have hrp := repLoop_span (fun q hq => ih child q hq) f pos [] [] hpos
            items mat p evs hsub
          refine okSpan_ok input pos _ hrp.1 hrp.2.1 ?_
          show mat = slice input pos p
          simpa using hrp.2.2
      | charRange a b =>
        rw [parseExpr]
        by_cases hend : input.length ≤ pos
        · rw [if_pos hend]
          exact okSpan_fail input pos _
        · rw [if_neg hend]
          by_cases hin : a ≤ byteAt input pos ∧ byteAt input pos ≤ b
          · rw [if_pos hin]
            refine okSpan_ok input pos _ (Nat.le_succ pos) (by omega) ?_
            show [charAt input pos] = slice input pos (pos + 1)
            rw [slice_one input (by omega)]
          · rw [if_neg hin]
            exact okSpan_fail input pos _
      | charClass bm =>
        rw [parseExpr]
        by_cases hend : input.length ≤ pos
        · rw [if_pos hend]
          exact okSpan_fail input pos _
        · rw [if_neg hend]
          by_cases hin : bm (byteAt input pos) = true
          · rw [if_pos hin]
            refine okSpan_ok input pos _ (Nat.le_succ pos) (by omega) ?_
            show [charAt input pos] = slice input pos (pos + 1)
            rw [slice_one input (by omega)]
          · rw [if_neg hin]
            exact okSpan_fail input pos _

/-- C1: for every grammar, rule name and input on which the unified parse
succeeds, the matched text of the returned tree root is exactly the
consumed-length input prefix input[0 .. consumed]. -/
theorem c1_success_matched_is_consumed_input_taken
    (g : Grammar) (fuel : Nat) (ruleName input : List Char) (ctx : ParseContext)
    (h : parseCtx g fuel ruleName input = some ctx) (hs : ctx.success = true) :
    ASTNode.matchedO ctx.ast = input.take ctx.consumed := by
  unfold parseCtx at h
  cases hr : getRule g ruleName with
  | none =>
    rw [hr] at h
    dsimp only at h
    simp only [Option.some.injEq] at h
    subst h
    simp [ParseContext.reset] at hs
  | some r =>
    rw [hr] at h
    dsimp only at h
    cases hsub : parseExpr g fuel r.rootExpr input 0 with
    | none => rw [hsub] at h; dsimp only at h; simp at h
    | some r2 =>
      rw [hsub] at h
      cases r2 with
      | fail p evs =>
        simp only [Option.some.injEq] at h
        subst h
        simp at hs
      | ok node p evs =>
        simp only [Option.some.injEq] at h
        subst h
        have hsp := (parse_span g input fuel r.rootExpr 0 (Nat.zero_le _)).1
          node p evs hsub
        simpa [slice] using hsp.2.2

/-- Grammar, input and fuel for the witnesses below: a single rule whose
body is the terminal ab. -/
def gW1 : Grammar := [⟨"<a>".toList, some (.terminal "ab".toList)⟩]

/-- The context the unified parse produces on the witness run. -/
def w1ctx : ParseContext :=
  (parseCtx gW1 3 "<a>".toList "ab".toList).getD ParseContext.reset

theorem c1_witness :
    parseCtx gW1 3 "<a>".toList "ab".toList = some w1ctx ∧ w1ctx.success = true ∧
      ASTNode.matchedO w1ctx.ast = "ab".toList.take w1ctx.consumed :=
  ⟨rfl, rfl,
    c1_success_matched_is_consumed_input_taken gW1 3 "<a>".toList "ab".toList w1ctx rfl rfl⟩

/-- C7: the consumed count never exceeds the input length; an outright
top-level failure reports no tree and zero consumption in the legacy
entry, and success = false with zero consumption in the unified entry. -/
theorem c7_consumed_bounds (g : Grammar) (fuel : Nat) (ruleName input : List Char) :
    (∀ t c, parseLegacy g fuel ruleName input = some (t, c) →
      c ≤ input.length ∧ (t = none → c = 0)) ∧
    (∀ ctx, parseCtx g fuel ruleName input = some ctx →
      ctx.consumed ≤ input.length ∧ (ctx.success = false → ctx.consumed = 0)) := by
  constructor
  · intro t c h
    unfold parseLegacy at h
    cases hr : getRule g ruleName with
    | none =>
      rw [hr] at h
      dsimp only at h
      simp only [Option.some.injEq, Prod.mk.injEq] at h
      omega
    | some r =>
      rw [hr] at h
      dsimp only at h
      cases hsub : parseExpr g fuel r.rootExpr input 0 with
      | none => rw [hsub] at h; dsimp only at h; simp at h
      | some r2 =>
        rw [hsub] at h
        cases r2 with
        | fail p evs =>
          simp only [Option.some.injEq, Prod.mk.injEq] at h
          omega
        | ok node p evs =>
          simp only [Option.some.injEq, Prod.mk.injEq] at h
          obtain ⟨ht, hc⟩ := h
          subst ht
          subst hc
          have hsp := (parse_span g input fuel r.rootExpr 0 (Nat.zero_le _)).1
            node p evs hsub
          refine ⟨hsp.2.1, ?_⟩
          intro hnone
          subst hnone
          have hsl : ([] : List Char) = slice input 0 p := hsp.2.2
          unfold slice at hsl
          simp only [List.drop_zero, Nat.sub_zero] at hsl
          rcases List.take_eq_nil_iff.mp hsl.symm with h1 | h1
          · exact h1
          · have h2 := hsp.2.1
            rw [h1] at h2
            simpa using h2
  · intro ctx h
    unfold parseCtx at h
    cases hr : getRule g ruleName with
    | none =>
      rw [hr] at h
      dsimp only at h
      simp only [Option.some.injEq] at h
      subst h
      exact ⟨Nat.zero_le _, fun _ => rfl⟩
    | some r =>
      rw [hr] at h
      dsimp only at h
      cases hsub : parseExpr g fuel r.rootExpr input 0 with
      | none => rw [hsub] at h; dsimp only at h; simp at h
      | some r2 =>
        rw [hsub] at h
        cases r2 with
        | fail p evs =>
          simp only [Option.some.injEq] at h
          subst h
          have hp := (parse_span g input fuel r.rootExpr 0 (Nat.zero_le _)).2
            p evs hsub
          subst hp
          exact ⟨Nat.zero_le _, fun _ => rfl⟩
        | ok node p evs =>
          simp only [Option.some.injEq] at h
          subst h
          have hsp := (parse_span g input fuel r.rootExpr 0 (Nat.zero_le _)).1
            node p evs hsub
          exact ⟨hsp.2.1, fun hfalse => by simp at hfalse⟩

/-- The context the unified parse produces on the failing witness run. -/
def w7ctx : ParseContext :=
  (parseCtx gW1 3 "<a>".toList "zz".toList).getD ParseContext.reset

theorem c7_witness :
    parseCtx gW1 3 "<a>".toList "zz".toList = some w7ctx ∧
      w7ctx.consumed ≤ "zz".toList.length ∧ w7ctx.consumed = 0 ∧
      parseLegacy gW1 3 "<a>".toList "zz".toList = some (none, 0) ∧
      (0 : Nat) ≤ "zz".toList.length ∧ (0 : Nat) = 0 :=
  ⟨rfl,
    ((c7_consumed_bounds gW1 3 "<a>".toList "zz".toList).2 w7ctx rfl).1,
    ((c7_consumed_bounds gW1 3 "<a>".toList "zz".toList).2 w7ctx rfl).2 rfl,
    rfl,
    ((c7_consumed_bounds gW1 3 "<a>".toList "zz".toList).1 none 0 rfl).1,
    ((c7_consumed_bounds gW1 3 "<a>".toList "zz".toList).1 none 0 rfl).2 rfl⟩

/-- The repeat loop yields a result whenever the child parser is total on
in-bounds positions: every kept iteration consumes at least one byte, so
input-length-many iterations suffice. -/
theorem repLoop_total {input : List Char} {step : Nat → Option Outcome}
    (hs : ∀ q, q ≤ input.length → OkSpan input q (step q))
    (htot : ∀ q, q ≤ input.length → (step q).isSome = true) :
    ∀ (fuel pos : Nat) (items : List (Option ASTNode)) (mat : List Char),
      pos ≤ input.length → input.length + 1 - pos ≤ fuel →
      (repLoop step input.length fuel pos items mat).isSome = true := by
  intro fuel
  induction fuel with
  | zero => intro pos items mat hpos hfuel; omega
  | succ f ih =>
    intro pos items mat hpos hfuel
    rw [repLoop]
    cases hstep : step pos with
    | none => exact absurd (hstep ▸ htot pos hpos) (by simp)
    | some r =>
      cases r with
      | fail q evs => simp
      | ok it q evs =>
        dsimp only
        cases it with
        | none => simp
        | some n =>
          dsimp only
          by_cases hempty : n.matched.isEmpty = true
          · rw [if_pos hempty]; simp
          · rw [if_neg hempty]
            by_cases hend : input.length ≤ q
            · rw [if_pos hend]; simp
            · rw [if_neg hend]
              have hb := (hs pos hpos).1 (some n) q evs hstep
              have hlt : pos < q := by
                rcases Nat.lt_or_ge pos q with h1 | h1
                · exact h1
                · exfalso
                  have hq : q = pos := le_antisymm h1 hb.1
                  have : ASTNode.matchedO (some n) = slice input pos q := hb.2.2
                  rw [hq, slice_refl] at this
                  have : n.matched = [] := this
                  simp [this] at hempty
              have hrec := ih q (items ++ [some n]) (mat ++ n.matched)
                hb.2.1 (by omega)
              cases hloop : repLoop step input.length f q (items ++ [some n])
                  (mat ++ n.matched) with
              | none => rw [hloop] at hrec; simp at hrec
              | some pr => obtain ⟨r, evs2⟩ := pr; simp

/-- C5: matching a Repeat terminates.  If the child parser yields a
result at every in-bounds position with child fuel f, and f covers the
remaining input length, the Repeat match at fuel f+1 yields a result —
the loop halts on child failure, on an empty child match, or at end of
input, and a zero-iteration run is still a success. -/
theorem c5_repeat_terminates (g : Grammar) (f : Nat) (child : Option Expression)
    (input : List Char) (pos : Nat)
    (hpos : pos ≤ input.length)
    (htot : ∀ q, q ≤ input.length → (parseExpr g f child input q).isSome = true)
    (hfuel : input.length + 1 - pos ≤ f) :
    (parseExpr g (f + 1) (some (.rep child)) input pos).isSome = true := by
  rw [parseExpr]
  have := @repLoop_total input (fun q => parseExpr g f child input q)
    (fun q hq => parse_span g input f child q hq) htot f pos [] [] hpos hfuel
  cases hloop : repLoop (fun q => parseExpr g f child input q)
      input.length f pos [] [] with
  | none => rw [hloop] at this; simp at this
  | some pr =>
    obtain ⟨⟨items, mat, p⟩, evs⟩ := pr
    simp

theorem c5_witness :
    (parseExpr [] 4 (some (.rep (some (.terminal "a".toList)))) "aa".toList 0).isSome
      = true :=
  c5_repeat_terminates [] 3 (some (.terminal "a".toList)) "aa".toList 0
    (by decide) (by decide) (by decide)

/-! ## The cyclic grammar used for the FIRST-termination claim -/

/-- A symbol referring to the rule named a. -/
def aSym : Expression := .symbol "<a>".toList

/-- The alternative a | x of the cyclic rule. -/
def aAlt : Expression := .alt [some aSym, some (.terminal "x".toList)]

/-- The cyclic grammar a ::= a | x. -/
def gCyc : Grammar := [⟨"<a>".toList, some aAlt⟩]

/-- C4 (refuting theorem): the FIRST computation does not terminate on a
grammar whose Symbol references form a cycle, at any fuel — the memo
entry is inserted only after the traversal completes, so there is no
conservative default for a re-entrant lookup to read, and the matcher
consequently diverges as well on any alternative that consults the FIRST
set of the cyclic symbol. -/
theorem c4_computeFirst_diverges_on_cycle :
    ∀ fuel : Nat,
      computeFirst gCyc fuel aSym = none ∧
      computeFirst gCyc fuel aAlt = none ∧
      (∀ input pos, parseExpr gCyc fuel (some aSym) input pos = none) ∧
      (∀ input pos, parseExpr gCyc fuel (some aAlt) input pos = none) := by
  intro fuel
  induction fuel with
  | zero =>
    exact ⟨rfl, rfl, fun input pos => rfl, fun input pos => rfl⟩
  | succ f ih =>
    obtain ⟨ih1, ih2, ih3, ih4⟩ := ih
    have hg : getRule gCyc ("<a>".toList) = some ⟨"<a>".toList, some aAlt⟩ := rfl
    refine ⟨?_, ?_, ?_, ?_⟩
    · show computeFirst gCyc (f + 1) (.symbol "<a>".toList) = none
      rw [computeFirst]
      rw [hg]
      exact ih2
    · show computeFirst gCyc (f + 1)
        (.alt [some aSym, some (.terminal "x".toList)]) = none
      rw [computeFirst]
      rw [altFirst, ih1]
    · intro input pos
      show parseExpr gCyc (f + 1) (some (.symbol "<a>".toList)) input pos = none
      rw [parseExpr]
      rw [hg]
      dsimp only
      rw [ih4 input pos]
    · intro input pos
      show parseExpr gCyc (f + 1)
        (some (.alt [some aSym, some (.terminal "x".toList)])) input pos = none
      rw [parseExpr, altLoop, ih1]

/-! ## Furthest-failure bookkeeping -/

/-- Maximum of an initial value and the positions of a list of events. -/
def maxPos (a : Nat) (evs : List Event) : Nat :=
  evs.foldl (fun m e => max m e.1) a

/-- Description of the first event recorded at a given position. -/
def firstAt (evs : List Event) (m : Nat) : Option (List Char) :=
  (evs.find? (fun e => decide (e.1 = m))).map Prod.snd

theorem updateError_errorPos (c : ParseContext) (p : Nat) (d : List Char) :
    (updateError c p d).errorPos = max c.errorPos p := by
  unfold updateError
  split
  · show p = max c.errorPos p
    omega
  · split
    · show c.errorPos = max c.errorPos p
      omega
    · show c.errorPos = max c.errorPos p
      omega

theorem applyEvents_errorPos :
    ∀ (evs : List Event) (ctx : ParseContext),
      (applyEvents ctx evs).errorPos = maxPos ctx.errorPos evs := by
  intro evs
  induction evs with
  | nil => intro ctx; rfl
  | cons e evs ih =>
    intro ctx
    show (applyEvents (updateError ctx e.1 e.2) evs).errorPos = _
    rw [ih, maxPos, maxPos, List.foldl_cons, updateError_errorPos]

theorem maxPos_ge_init (evs : List Event) : ∀ a, a ≤ maxPos a evs := by
  induction evs with
  | nil => intro a; exact le_refl a
  | cons e evs ih =>
    intro a
    calc a ≤ max a e.1 := le_max_left a e.1
    _ ≤ maxPos (max a e.1) evs := ih (max a e.1)

theorem maxPos_mem_le {evs : List Event} {e : Event} (he : e ∈ evs) :
    ∀ a, e.1 ≤ maxPos a evs := by
  induction evs with
  | nil => cases he
  | cons e2 evs ih =>
    intro a
    rcases List.mem_cons.mp he with h | h
    · subst h
      calc e.1 ≤ max a e.1 := le_max_right a e.1
      _ ≤ maxPos (max a e.1) evs := maxPos_ge_init evs _
    · exact ih h (max a e2.1)

theorem maxPos_all_le {evs : List Event} :
    ∀ {a}, (∀ e ∈ evs, e.1 ≤ a) → maxPos a evs = a := by
  induction evs with
  | nil => intro a _; rfl
  | cons e evs ih =>
    intro a hall
    show maxPos (max a e.1) evs = a
    have h1 : max a e.1 = a := max_eq_left (hall e (List.mem_cons_self e evs))
    rw [h1]
    exact ih (fun e' he' => hall e' (List.mem_cons_of_mem e he'))

theorem firstAt_cons_pos {e : Event} {m : Nat} (evs : List Event) (h : e.1 = m) :
    firstAt (e :: evs) m = some e.2 := by
  unfold firstAt
  rw [List.find?_cons_of_pos _ (by simp [h])]
  rfl

theorem firstAt_cons_neg {e : Event} {m : Nat} (evs : List Event) (h : ¬e.1 = m) :
    firstAt (e :: evs) m = firstAt evs m := by
  unfold firstAt
  rw [List.find?_cons_of_neg _ (by simp [h])]

/-- What the `expected` field ends up as after a run of updateError calls:
the first description recorded at the final maximum when some event beats
the entry maximum (or fills an empty slot at it); otherwise the entry
description survives. -/
theorem applyEvents_expected :
    ∀ (evs : List Event) (ctx : ParseContext), (∀ e ∈ evs, e.2 ≠ ([] : List Char)) →
    (applyEvents ctx evs).expected =
      if ∀ e ∈ evs, e.1 ≤ ctx.errorPos then
        (if ctx.expected = [] then (firstAt evs ctx.errorPos).getD [] else ctx.expected)
      else (firstAt evs (maxPos ctx.errorPos evs)).getD [] := by
  intro evs
  induction evs with
  | nil =>
    intro ctx _
    rw [if_pos (by simp)]
    by_cases hexp : ctx.expected = []
    · rw [if_pos hexp]
      show ctx.expected = (Option.map Prod.snd (List.find? _ [])).getD []
      simp [hexp]
    · rw [if_neg hexp]
      rfl
  | cons e evs ih =>
    intro ctx hd
    have hd' : ∀ e' ∈ evs, e'.2 ≠ ([] : List Char) :=
      fun e' he' => hd e' (List.mem_cons_of_mem e he')
    have hdhead : e.2 ≠ ([] : List Char) := hd e (List.mem_cons_self e evs)
    show (applyEvents (updateError ctx e.1 e.2) evs).expected = _
    have hmcons : maxPos ctx.errorPos (e :: evs) = maxPos (max ctx.errorPos e.1) evs := rfl
    rcases Nat.lt_or_ge ctx.errorPos e.1 with hgt | hle
    · have hctx' : updateError ctx e.1 e.2 =
          { ctx with errorPos := e.1, expected := e.2 } := by
        unfold updateError
        rw [if_pos hgt]
      rw [hctx', ih _ hd']
      dsimp only
      have hnotall : ¬∀ e' ∈ e :: evs, e'.1 ≤ ctx.errorPos := by
        intro hall
        exact absurd (hall e (List.mem_cons_self e evs)) (by omega)
      rw [if_neg hnotall, hmcons, max_eq_right (le_of_lt hgt)]
      by_cases hall : ∀ e' ∈ evs, e'.1 ≤ e.1
      · rw [if_pos hall, if_neg hdhead, maxPos_all_le hall, firstAt_cons_pos evs rfl]
        rfl
      · rw [if_neg hall]
        have hM : e.1 < maxPos e.1 evs := by
          push_neg at hall
          obtain ⟨e', he', hgt'⟩ := hall
          exact lt_of_lt_of_le hgt' (maxPos_mem_le he' e.1)
        rw [firstAt_cons_neg evs (by omega)]
    · have habs : max ctx.errorPos e.1 = ctx.errorPos := max_eq_left hle
      rw [hmcons, habs]
      by_cases hfill : e.1 = ctx.errorPos ∧ ctx.expected = []
      · have hctx' : updateError ctx e.1 e.2 = { ctx with expected := e.2 } := by
          unfold updateError
          rw [if_neg (by omega), if_pos hfill]
        rw [hctx', ih _ hd']
        dsimp only
        by_cases hall : ∀ e' ∈ evs, e'.1 ≤ ctx.errorPos
        · rw [if_pos hall, if_neg hdhead]
          have hconsall : ∀ e' ∈ e :: evs, e'.1 ≤ ctx.errorPos := by
            intro e' he'
            rcases List.mem_cons.mp he' with h2 | h2
            · rw [h2]
              exact le_of_eq hfill.1
            · exact hall e' h2
          rw [if_pos hconsall, if_pos hfill.2, firstAt_cons_pos evs hfill.1]
          rfl
        · rw [if_neg hall]
          have hnotall : ¬∀ e' ∈ e :: evs, e'.1 ≤ ctx.errorPos := by
            intro h2
            exact hall (fun e' he' => h2 e' (List.mem_cons_of_mem e he'))
          rw [if_neg hnotall]
          have hM : ctx.errorPos < maxPos ctx.errorPos evs := by
            push_neg at hall
            obtain ⟨e', he', hgt'⟩ := hall
            exact lt_of_lt_of_le hgt' (maxPos_mem_le he' ctx.errorPos)
          rw [firstAt_cons_neg evs (by omega)]
      · have hctx' : updateError ctx e.1 e.2 = ctx := by
          unfold updateError
          rw [if_neg (by omega), if_neg hfill]
        rw [hctx', ih _ hd']
        by_cases hall : ∀ e' ∈ evs, e'.1 ≤ ctx.errorPos
        · rw [if_pos hall]
          have hconsall : ∀ e' ∈ e :: evs, e'.1 ≤ ctx.errorPos := by
            intro e' he'
            rcases List.mem_cons.mp he' with h2 | h2
            · rw [h2]
              exact hle
            · exact hall e' h2
          rw [if_pos hconsall]
          by_cases hexp : ctx.expected = []
          · rw [if_pos hexp, if_pos hexp]
            have hne : ¬e.1 = ctx.errorPos := fun h2 => hfill ⟨h2, hexp⟩
            rw [firstAt_cons_neg evs hne]
          · rw [if_neg hexp, if_neg hexp]
        · rw [if_neg hall]
          have hnotall : ¬∀ e' ∈ e :: evs, e'.1 ≤ ctx.errorPos := by
            intro h2
            exact hall (fun e' he' => h2 e' (List.mem_cons_of_mem e he'))
          rw [if_neg hnotall]
          have hM : ctx.errorPos < maxPos ctx.errorPos evs := by
            push_neg at hall
            obtain ⟨e', he', hgt'⟩ := hall
            exact lt_of_lt_of_le hgt' (maxPos_mem_le he' ctx.errorPos)
          rw [firstAt_cons_neg evs (by omega)]

theorem maxPos_attained :
    ∀ (evs : List Event) (a : Nat), maxPos a evs = a ∨ ∃ e ∈ evs, maxPos a evs = e.1 := by
  intro evs
  induction evs with
  | nil => intro a; exact Or.inl rfl
  | cons e evs ih =>
    intro a
    have hstep : maxPos a (e :: evs) = maxPos (max a e.1) evs := rfl
    rcases ih (max a e.1) with h | ⟨e', he', heq⟩
    · rcases Nat.le_total a e.1 with h2 | h2
      · exact Or.inr ⟨e, List.mem_cons_self e evs, by rw [hstep, h]; omega⟩
      · exact Or.inl (by rw [hstep, h]; omega)
    · exact Or.inr ⟨e', List.mem_cons_of_mem e he', by rw [hstep, heq]⟩

theorem firstAt_maxPos_isSome (evs : List Event) (hne : evs ≠ []) :
    (firstAt evs (maxPos 0 evs)).isSome = true := by
  have hex : ∃ e ∈ evs, e.1 = maxPos 0 evs := by
    rcases maxPos_attained evs 0 with h | ⟨e, he, heq⟩
    · cases evs with
      | nil => exact absurd rfl hne
      | cons e0 evs0 =>
        refine ⟨e0, List.mem_cons_self e0 evs0, ?_⟩
        have h1 := maxPos_mem_le (List.mem_cons_self e0 evs0) 0
        omega
    · exact ⟨e, he, heq.symm⟩
  unfold firstAt
  obtain ⟨e, he, heq⟩ := hex
  have hfs : (List.find? (fun e => decide (e.1 = maxPos 0 evs)) evs).isSome = true := by
    rw [List.find?_isSome]
    exact ⟨e, he, by simp [heq]⟩
  cases hf : List.find? (fun e => decide (e.1 = maxPos 0 evs)) evs with
  | none => rw [hf] at hfs; simp at hfs
  | some x => rfl

/-- C6: on a failing parse, the context's error position is the maximum
position among the updateError events the run records, it is
non-decreasing along the run (every prefix of the event list yields a
smaller-or-equal maximum), and the expected description is the first one
recorded at that maximum. -/
theorem c6_error_pos_is_max_and_expected_is_first
    (g : Grammar) (fuel : Nat) (ruleName input : List Char)
    (r : Rule) (p : Nat) (evs : List Event) (ctx : ParseContext)
    (hr : getRule g ruleName = some r)
    (hfail : parseExpr g fuel r.rootExpr input 0 = some (.fail p evs))
    (hctx : parseCtx g fuel ruleName input = some ctx)
    (hdesc : ∀ e ∈ evs, e.2 ≠ ([] : List Char)) :
    ctx.errorPos = maxPos 0 evs ∧
    (∀ n : Nat, (applyEvents ParseContext.reset (evs.take n)).errorPos ≤ ctx.errorPos) ∧
    (evs ≠ [] → some ctx.expected = firstAt evs ctx.errorPos) := by
  unfold parseCtx at hctx
  rw [hr] at hctx
  dsimp only at hctx
  rw [hfail] at hctx
  simp only [Option.some.injEq] at hctx
  subst hctx
  have herr : ({ applyEvents ParseContext.reset evs with
      success := false, ast := none, consumed := p } : ParseContext).errorPos
      = (applyEvents ParseContext.reset evs).errorPos := rfl
  have hexp : ({ applyEvents ParseContext.reset evs with
      success := false, ast := none, consumed := p } : ParseContext).expected
      = (applyEvents ParseContext.reset evs).expected := rfl
  have h0 : (ParseContext.reset).errorPos = 0 := rfl
  have hmax : (applyEvents ParseContext.reset evs).errorPos = maxPos 0 evs := by
    rw [applyEvents_errorPos, h0]
  refine ⟨herr.trans hmax, ?_, ?_⟩
  · intro n
    rw [applyEvents_errorPos, h0, herr.trans hmax]
    conv_rhs => rw [← List.take_append_drop n evs]
    show maxPos 0 (evs.take n) ≤ maxPos 0 (evs.take n ++ evs.drop n)
    unfold maxPos
    rw [List.foldl_append]
    exact maxPos_ge_init (evs.drop n) _
  · intro hne
    rw [hexp, herr.trans hmax]
    have hch := applyEvents_expected evs ParseContext.reset hdesc
    rw [h0] at hch
    have hsome := firstAt_maxPos_isSome evs hne
    obtain ⟨d, hd2⟩ := Option.isSome_iff_exists.mp hsome
    by_cases hall : ∀ e ∈ evs, e.1 ≤ 0
    · rw [if_pos hall,
        if_pos (show (ParseContext.reset).expected = ([] : List Char) from rfl)] at hch
      have hm0 : maxPos 0 evs = 0 := maxPos_all_le hall
      rw [hch, hm0]
      rw [hm0] at hd2
      rw [hd2]
      rfl
    · rw [if_neg hall] at hch
      rw [hch, hd2]
      rfl

/-- Events of the witness run: the one terminal failure at position 0. -/
def evs6 : List Event := [(0, termDesc "ab".toList)]

/-- The context of the witness failing run for the error-reporting claim. -/
def w6ctx : ParseContext :=
  (parseCtx gW1 3 "<a>".toList "zz".toList).getD ParseContext.reset

theorem c6_witness :
    getRule gW1 "<a>".toList = some ⟨"<a>".toList, some (.terminal "ab".toList)⟩ ∧
    parseCtx gW1 3 "<a>".toList "zz".toList = some w6ctx ∧
    w6ctx.errorPos = maxPos 0 evs6 ∧
    (applyEvents ParseContext.reset (evs6.take 1)).errorPos ≤ w6ctx.errorPos ∧
    some w6ctx.expected = firstAt evs6 w6ctx.errorPos := by
  have h := c6_error_pos_is_max_and_expected_is_first gW1 3 "<a>".toList "zz".toList
    ⟨"<a>".toList, some (.terminal "ab".toList)⟩ 0 evs6 w6ctx rfl rfl rfl
    (by intro e he; simp [evs6, termDesc] at he; simp [he])
  exact ⟨rfl, rfl, h.1, h.2.1 1, h.2.2 (by simp [evs6])⟩

/-! ## Reversed ranges, empty terminals and the builder loop -/

/-- Rule text with a reversed character range written directly in a rule
body (so it reaches parseFactor, not the char-class parser). -/
def rule8 : List Char := "<r> ::= \"z\" ... \"a\"".toList

/-- C8 counterexample: the builder stores the reversed bounds exactly as
written — the resulting CharRange has start 122 and end 97, violating
start ≤ end. -/
theorem c8_counterexample :
    buildGrammar 20 [rule8] =
      some [⟨"<r>".toList, some (.charRange 122 97)⟩] ∧ ¬(122 ≤ 97) :=
  ⟨rfl, by decide⟩

/-- C8 amended: only the char-class parser swaps reversed bounds — its
bitmap update covers exactly the min-to-max interval — while parseFactor
stores a directly-written reversed range verbatim, so the start ≤ end
invariant holds inside character classes but not for CharRange nodes
built in parseFactor. -/
theorem c8_amended :
    (∀ (bm : Nat → Bool) (a b c : Nat),
      classAddRange bm a b c =
        (bm c || (decide (min a b ≤ c) && decide (c ≤ max a b)))) ∧
    buildGrammar 20 [rule8] =
      some [⟨"<r>".toList, some (.charRange 122 97)⟩] := by
  constructor
  · intro bm a b c
    unfold classAddRange
    by_cases hab : a ≤ b
    · rw [if_pos hab]
      show (bm c || (decide (a ≤ c) && decide (c ≤ b))) = _
      rw [min_eq_left hab, max_eq_right hab]
    · rw [if_neg hab]
      show (bm c || (decide (b ≤ c) && decide (c ≤ a))) = _
      rw [min_eq_right (by omega), max_eq_left (by omega)]
  · rfl

/-- Rule text whose body is an empty double-quoted terminal. -/
def rule9 : List Char := "<e> ::= \"\"".toList

/-- C9 counterexample: the builder accepts the zero-length terminal and
stores a Terminal expression with an empty literal in the grammar, so an
empty Terminal is reachable by the matcher. -/
theorem c9_counterexample :
    buildGrammar 20 [rule9] = some [⟨"<e>".toList, some (.terminal [])⟩] ∧
    (stripQuotes ([] : List Char)).length = 0 :=
  ⟨rfl, rfl⟩

/-- C9 amended: zero-length terminals are not rejected at build time —
the builder stores a Terminal with an empty literal — but the matcher
rejects every empty-literal Terminal at match time with the
empty-terminal error, so such a node never matches. -/
theorem c9_amended :
    buildGrammar 20 [rule9] = some [⟨"<e>".toList, some (.terminal [])⟩] ∧
    ∀ (g : Grammar) (fuel : Nat) (v input : List Char) (pos : Nat),
      stripQuotes v = [] →
      parseExpr g (fuel + 1) (some (.terminal v)) input pos =
        some (.fail pos [(pos, emptyTermDesc)]) := by
  refine ⟨rfl, ?_⟩
  intro g fuel v input pos h
  rw [parseExpr]
  rw [if_pos (by rw [h]; rfl)]

theorem c9_witness :
    stripQuotes ([] : List Char) = [] ∧
    parseExpr [] 1 (some (.terminal [])) "x".toList 0 =
      some (.fail 0 [(0, emptyTermDesc)]) :=
  ⟨rfl, c9_amended.2 [] 0 [] "x".toList 0 rfl⟩

/-- The tokenizer cursor at the start of the body of the bare-dot rule. -/
def s10a : TokSt := ⟨" .".toList, 0⟩

/-- The cursor after skipping the space: it sits on the dot and never
advances again. -/
def s10b : TokSt := ⟨" .".toList, 1⟩

theorem parseTermB_s10a :
    ∀ f : Nat, parseTermB f s10a = none ∨
      parseTermB f s10a = some (some (.terminal []), s10b) := by
  intro f
  match f with
  | 0 => exact Or.inl rfl
  | 1 => exact Or.inl rfl
  | n + 2 => exact Or.inr rfl

theorem parseTermB_s10b :
    ∀ f : Nat, parseTermB f s10b = none ∨
      parseTermB f s10b = some (some (.terminal []), s10b) := by
  intro f
  match f with
  | 0 => exact Or.inl rfl
  | 1 => exact Or.inl rfl
  | n + 2 => exact Or.inr rfl

theorem seqLoopB_s10b :
    ∀ (f : Nat) (acc : List Expression), seqLoopB f s10b acc = none := by
  intro f
  induction f with
  | zero => intro acc; rfl
  | succ f ih =>
    intro acc
    rw [seqLoopB]
    rw [if_neg (by decide)]
    rcases parseTermB_s10b f with h | h
    · rw [h]
    · rw [h]
      exact ih (acc ++ [.terminal []])

theorem seqLoopB_s10a :
    ∀ (f : Nat) (acc : List Expression), seqLoopB f s10a acc = none := by
  intro f acc
  cases f with
  | zero => rfl
  | succ f =>
    rw [seqLoopB]
    rw [if_neg (by decide)]
    rcases parseTermB_s10a f with h | h
    · rw [h]
    · rw [h]
      exact seqLoopB_s10b f (acc ++ [.terminal []])

theorem parseExpressionB_s10a : ∀ f : Nat, parseExpressionB f s10a = none := by
  intro f
  cases f with
  | zero => rfl
  | succ f =>
    rw [parseExpressionB]
    cases f with
    | zero => rfl
    | succ f2 =>
      rw [parseSequenceB]
      rw [seqLoopB_s10a f2 []]

/-- C10 (refuting theorem for the termination of add_rule): on the rule
text a ::= . the tokenizer's word rule returns an empty word token
without advancing the cursor, so the grammar builder's term-reading loop
never terminates — at every fuel the modelled addRule runs out instead
of returning. -/
theorem c10_addRule_never_terminates_on_bare_dot :
    (∀ (fuel : Nat) (g : Grammar), addRule fuel g ("<a> ::= .".toList) = none) ∧
    tokNext s10b = (⟨.word, []⟩, s10b) := by
  constructor
  · intro fuel g
    unfold addRule
    have hsep : findSep ("<a> ::= .".toList) = some 4 := rfl
    rw [hsep]
    dsimp only
    have hrhs : (("<a> ::= .".toList).drop (4 + 3)) = " .".toList := rfl
    rw [hrhs]
    rw [show (⟨" .".toList, 0⟩ : TokSt) = s10a from rfl]
    rw [parseExpressionB_s10a fuel]
  · rfl

/-! ## Longest-match characterisation of the alternative loop -/

/-- A branch the skip test lets through. -/
def branchAttempted (firstOf : Expression → Option FirstInfo)
    (hasChar : Bool) (look : Nat) (c : Expression) : Prop :=
  ∃ fi, firstOf c = some fi ∧ altSkip hasChar look fi = false

/-- A branch whose attempt succeeds ending at position p. -/
def branchOk (step : Option Expression → Option Outcome) (c : Expression) (p : Nat) : Prop :=
  ∃ n e, step (some c) = some (.ok n p e)

/-- Full characterisation of the fold parseAlternative performs: every
child has a defined FIRST; the best position never decreases and bounds
every successful attempt; a match implies some branch matched; and either
nothing beat the incoming state, or the final best node is an alt parent
around the first branch that attains the final best position, with every
earlier attempted success strictly below it. -/
theorem altLoop_char {firstOf : Expression → Option FirstInfo}
    {step : Option Expression → Option Outcome} {hasChar : Bool} {look : Nat} :
    ∀ (cs : List (Option Expression)) (st st2 : AltSt) (evs : List Event),
      altLoop firstOf step hasChar look cs st = some (st2, evs) →
      (∀ c? ∈ cs, ∃ c, c? = some c ∧ ∃ fi, firstOf c = some fi) ∧
      st.bestPos ≤ st2.bestPos ∧
      (∀ c? ∈ cs, ∀ c p, c? = some c → branchAttempted firstOf hasChar look c →
        branchOk step c p → p ≤ st2.bestPos) ∧
      (st2.anyMatch = true → st.anyMatch = true ∨
        ∃ c? ∈ cs, ∃ c p, c? = some c ∧ branchAttempted firstOf hasChar look c ∧
          branchOk step c p) ∧
      ((st2.bestPos = st.bestPos ∧ st2.best = st.best) ∨
        (st.bestPos < st2.bestPos ∧
          ∃ l1 c l2 bn e, cs = l1 ++ some c :: l2 ∧
            branchAttempted firstOf hasChar look c ∧
            step (some c) = some (.ok bn st2.bestPos e) ∧
            st2.best = some (.mk altSym (ASTNode.matchedO bn) [bn]) ∧
            (∀ c'? ∈ l1, ∀ c' p', c'? = some c' →
              branchAttempted firstOf hasChar look c' →
              branchOk step c' p' → p' < st2.bestPos))) := by
  intro cs
  induction cs with
  | nil =>
    intro st st2 evs h
    simp only [altLoop, Option.some.injEq, Prod.mk.injEq] at h
    obtain ⟨h1, -⟩ := h
    subst h1
    refine ⟨by simp, le_refl _, by simp, fun h2 => Or.inl h2, Or.inl ⟨rfl, rfl⟩⟩
  | cons c? cs ih =>
    intro st st2 evs h
    cases c? with
    | none => simp [altLoop] at h
    | some c =>
      rw [altLoop] at h
      cases hfi : firstOf c with
      | none => rw [hfi] at h; simp at h
      | some fi =>
        rw [hfi] at h
        dsimp only at h
        by_cases hskip : altSkip hasChar look fi = true
        · rw [if_pos hskip] at h
          obtain ⟨hdef, hle, hub, hany, hwin⟩ := ih st st2 evs h
          have hnotatt : ¬branchAttempted firstOf hasChar look c := by
            rintro ⟨fi2, hfi2, hsf⟩
            rw [hfi] at hfi2
            cases hfi2
            rw [hskip] at hsf
            cases hsf
          refine ⟨?_, hle, ?_, ?_, ?_⟩
          · intro d hd
            rcases List.mem_cons.mp hd with h2 | h2
            · exact ⟨c, h2, fi, hfi⟩
            · exact hdef d h2
          · intro d hd c2 p hc2 hatt hok
            rcases List.mem_cons.mp hd with h2 | h2
            · rw [h2] at hc2
              cases hc2
              exact absurd hatt hnotatt
            · exact hub d h2 c2 p hc2 hatt hok
          · intro h2
            rcases hany h2 with h3 | ⟨d, hd, c2, p, hc2, hatt, hok⟩
            · exact Or.inl h3
            · exact Or.inr ⟨d, List.mem_cons_of_mem _ hd, c2, p, hc2, hatt, hok⟩
          · rcases hwin with h3 | ⟨hlt, l1, w, l2, bn, e, hsplit, hatt, hstep, hbest, hpre⟩
            · exact Or.inl h3
            · refine Or.inr ⟨hlt, some c :: l1, w, l2, bn, e, by rw [hsplit]; rfl, hatt,
                hstep, hbest, ?_⟩
              intro d hd c2 p2 hc2 hatt2 hok2
              rcases List.mem_cons.mp hd with h4 | h4
              · rw [h4] at hc2
                cases hc2
                exact absurd hatt2 hnotatt
              · exact hpre d h4 c2 p2 hc2 hatt2 hok2
        · rw [if_neg hskip] at h
          have hattc : branchAttempted firstOf hasChar look c :=
            ⟨fi, hfi, Bool.not_eq_true _ ▸ (by simpa using hskip)⟩
          cases hstep : step (some c) with
          | none => rw [hstep] at h; simp at h
          | some r =>
            rw [hstep] at h
            cases r with
            | fail q e1 =>
              dsimp only at h
              cases hrec : altLoop firstOf step hasChar look cs st with
              | none => rw [hrec] at h; simp at h
              | some pr =>
                obtain ⟨stE, evs2⟩ := pr
                rw [hrec] at h
                simp only [Option.some.injEq, Prod.mk.injEq] at h
                obtain ⟨h1, -⟩ := h
                subst h1
                obtain ⟨hdef, hle, hub, hany, hwin⟩ := ih st stE evs2 hrec
                have hnok : ∀ p, ¬branchOk step c p := by
                  rintro p ⟨n, e2, hok⟩
                  rw [hstep] at hok
                  simp at hok
                refine ⟨?_, hle, ?_, ?_, ?_⟩
                · intro d hd
                  rcases List.mem_cons.mp hd with h2 | h2
                  · exact ⟨c, h2, fi, hfi⟩
                  · exact hdef d h2
                · intro d hd c2 p hc2 hatt hok
                  rcases List.mem_cons.mp hd with h2 | h2
                  · rw [h2] at hc2
                    cases hc2
                    exact absurd hok (hnok p)
                  · exact hub d h2 c2 p hc2 hatt hok
                · intro h2
                  rcases hany h2 with h3 | ⟨d, hd, c2, p, hc2, hatt, hok⟩
                  · exact Or.inl h3
                  · exact Or.inr ⟨d, List.mem_cons_of_mem _ hd, c2, p, hc2, hatt, hok⟩
                · rcases hwin with h3 | ⟨hlt, l1, w, l2, bn, e, hsplit, hatt, hstep2, hbest, hpre⟩
                  · exact Or.inl h3
                  · refine Or.inr ⟨hlt, some c :: l1, w, l2, bn, e, by rw [hsplit]; rfl, hatt,
                      hstep2, hbest, ?_⟩
                    intro d hd c2 p2 hc2 hatt2 hok2
                    rcases List.mem_cons.mp hd with h4 | h4
                    · rw [h4] at hc2
                      cases hc2
                      exact absurd hok2 (hnok p2)
                    · exact hpre d h4 c2 p2 hc2 hatt2 hok2
            | ok bn p e1 =>
              dsimp only at h
              have hokc : branchOk step c p := ⟨bn, e1, hstep⟩
              have hdetp : ∀ p2, branchOk step c p2 → p2 = p := by
                rintro p2 ⟨n2, e2, hok⟩
                rw [hstep] at hok
                simp only [Option.some.injEq, Outcome.ok.injEq] at hok
                exact hok.2.1.symm
              by_cases hcmp : st.bestPos < p
              · rw [if_pos hcmp] at h
                cases hrec : altLoop firstOf step hasChar look cs
                    ⟨some (.mk altSym (ASTNode.matchedO bn) [bn]), p, true⟩ with
                | none => rw [hrec] at h; simp at h
                | some pr =>
                  obtain ⟨stE, evs2⟩ := pr
                  rw [hrec] at h
                  simp only [Option.some.injEq, Prod.mk.injEq] at h
                  obtain ⟨h1, -⟩ := h
                  subst h1
                  obtain ⟨hdef, hle, hub, hany, hwin⟩ := ih _ stE evs2 hrec
                  dsimp only at hle hub hany hwin
                  have hle2 : p ≤ stE.bestPos := hle
                  refine ⟨?_, by omega, ?_, ?_, ?_⟩
                  · intro d hd
                    rcases List.mem_cons.mp hd with h2 | h2
                    · exact ⟨c, h2, fi, hfi⟩
                    · exact hdef d h2
                  · intro d hd c2 p2 hc2 hatt hok
                    rcases List.mem_cons.mp hd with h2 | h2
                    · rw [h2] at hc2
                      cases hc2
                      rw [hdetp p2 hok]
                      exact hle2
                    · exact hub d h2 c2 p2 hc2 hatt hok
                  · intro h2
                    exact Or.inr ⟨some c, List.mem_cons_self _ _, c, p, rfl, hattc, hokc⟩
                  · rcases hwin with ⟨hp3, hb3⟩ | ⟨hlt, l1, w, l2, bn2, e2, hsplit, hatt,
                        hstep2, hbest, hpre⟩
                    · refine Or.inr ⟨by omega, [], c, cs, bn, e1, rfl, hattc, ?_, ?_, by simp⟩
                      · rw [hstep, hp3]
                      · rw [hb3]
                    · refine Or.inr ⟨by omega, some c :: l1, w, l2, bn2, e2,
                        by rw [hsplit]; rfl, hatt, hstep2, hbest, ?_⟩
                      intro d hd c2 p2 hc2 hatt2 hok2
                      rcases List.mem_cons.mp hd with h4 | h4
                      · rw [h4] at hc2
                        cases hc2
                        rw [hdetp p2 hok2]
                        omega
                      · exact hpre d h4 c2 p2 hc2 hatt2 hok2
              · rw [if_neg hcmp] at h
                cases hrec : altLoop firstOf step hasChar look cs
                    ⟨st.best, st.bestPos, true⟩ with
                | none => rw [hrec] at h; simp at h
                | some pr =>
                  obtain ⟨stE, evs2⟩ := pr
                  rw [hrec] at h
                  simp only [Option.some.injEq, Prod.mk.injEq] at h
                  obtain ⟨h1, -⟩ := h
                  subst h1
                  obtain ⟨hdef, hle, hub, hany, hwin⟩ := ih _ stE evs2 hrec
                  dsimp only at hle hub hany hwin
                  have hle2 : st.bestPos ≤ stE.bestPos := hle
                  refine ⟨?_, hle2, ?_, ?_, ?_⟩
                  · intro d hd
                    rcases List.mem_cons.mp hd with h2 | h2
                    · exact ⟨c, h2, fi, hfi⟩
                    · exact hdef d h2
                  · intro d hd c2 p2 hc2 hatt hok
                    rcases List.mem_cons.mp hd with h2 | h2
                    · rw [h2] at hc2
                      cases hc2
                      rw [hdetp p2 hok]
                      omega
                    · exact hub d h2 c2 p2 hc2 hatt hok
                  · intro h2
                    exact Or.inr ⟨some c, List.mem_cons_self _ _, c, p, rfl, hattc, hokc⟩
                  · rcases hwin with ⟨hp3, hb3⟩ | ⟨hlt, l1, w, l2, bn2, e2, hsplit, hatt,
                        hstep2, hbest, hpre⟩
                    · exact Or.inl ⟨hp3, hb3⟩
                    · refine Or.inr ⟨by omega, some c :: l1, w, l2, bn2, e2,
                        by rw [hsplit]; rfl, hatt, hstep2, hbest, ?_⟩
                      intro d hd c2 p2 hc2 hatt2 hok2
                      rcases List.mem_cons.mp hd with h4 | h4
                      · rw [h4] at hc2
                        cases hc2
                        rw [hdetp p2 hok2]
                        omega
                      · exact hpre d h4 c2 p2 hc2 hatt2 hok2

/-! ## Soundness of the FIRST analysis for the matcher -/

theorem contains_append_left {l1 l2 : List Nat} {b : Nat}
    (h : l1.contains b = true) : (l1 ++ l2).contains b = true := by
  rw [List.elem_iff] at h ⊢
  exact List.mem_append_left l2 h

theorem contains_append_right {l1 l2 : List Nat} {b : Nat}
    (h : l2.contains b = true) : (l1 ++ l2).contains b = true := by
  rw [List.elem_iff] at h ⊢
  exact List.mem_append_right l1 h

theorem seqFirst_acc_sub {firstOf : Expression → Option FirstInfo} :
    ∀ (cs : List Expression) (acc fi : FirstInfo),
      seqFirst firstOf cs acc = some fi →
      ∀ b, acc.chars.contains b = true → fi.chars.contains b = true := by
  intro cs
  induction cs with
  | nil =>
    intro acc fi h b hb
    simp only [seqFirst, Option.some.injEq] at h
    exact h ▸ hb
  | cons c cs ih =>
    intro acc fi h b hb
    rw [seqFirst] at h
    cases hfi : firstOf c with
    | none => rw [hfi] at h; simp at h
    | some cf =>
      rw [hfi] at h
      dsimp only at h
      by_cases hn : cf.nullable = true
      · rw [if_pos hn] at h
        exact ih _ _ h b (contains_append_left hb)
      · rw [if_neg hn] at h
        simp only [Option.some.injEq] at h
        rw [← h]
        exact contains_append_left hb

theorem altFirst_acc_mono {firstOf : Expression → Option FirstInfo} :
    ∀ (cs : List (Option Expression)) (acc fi : FirstInfo),
      altFirst firstOf cs acc = some fi →
      (∀ b, acc.chars.contains b = true → fi.chars.contains b = true) ∧
      (acc.nullable = true → fi.nullable = true) := by
  intro cs
  induction cs with
  | nil =>
    intro acc fi h
    simp only [altFirst, Option.some.injEq] at h
    exact h ▸ ⟨fun b hb => hb, fun hn => hn⟩
  | cons c? cs ih =>
    intro acc fi h
    cases c? with
    | none => simp [altFirst] at h
    | some c =>
      rw [altFirst] at h
      cases hfi : firstOf c with
      | none => rw [hfi] at h; simp at h
      | some cf =>
        rw [hfi] at h
        dsimp only at h
        obtain ⟨hsub, hnul⟩ := ih _ _ h
        constructor
        · intro b hb
          exact hsub b (contains_append_left hb)
        · intro hn
          exact hnul (by simp [mergeFirst, hn])

theorem altFirst_member {firstOf : Expression → Option FirstInfo} :
    ∀ (cs : List (Option Expression)) (acc fi : FirstInfo),
      altFirst firstOf cs acc = some fi →
      ∀ c, some c ∈ cs → ∃ cf, firstOf c = some cf ∧
        (∀ b, cf.chars.contains b = true → fi.chars.contains b = true) ∧
        (cf.nullable = true → fi.nullable = true) := by
  intro cs
  induction cs with
  | nil =>
    intro acc fi h c hc
    cases hc
  | cons c? cs ih =>
    intro acc fi h c hc
    cases c? with
    | none => simp [altFirst] at h
    | some c0 =>
      rw [altFirst] at h
      cases hfi : firstOf c0 with
      | none => rw [hfi] at h; simp at h
      | some cf0 =>
        rw [hfi] at h
        dsimp only at h
        rcases List.mem_cons.mp hc with h2 | h2
        · have hc0 : c = c0 := by
            injection h2
          subst hc0
          obtain ⟨hsub, hnul⟩ := altFirst_acc_mono cs _ fi h
          refine ⟨cf0, hfi, ?_, ?_⟩
          · intro b hb
            exact hsub b (contains_append_right hb)
          · intro hn
            exact hnul (by simp [mergeFirst, hn])
        · exact ih _ _ h c h2

theorem seqFirst_sound {input : List Char} {firstOf : Expression → Option FirstInfo}
    {step : Expression → Nat → Option Outcome} {pos : Nat}
    (hspan : ∀ c q, q ≤ input.length → OkSpan input q (step c q))
    (hpos : pos ≤ input.length)
    (hIH : ∀ c fi2 n2 p2 e2, firstOf c = some fi2 →
      step c pos = some (.ok n2 p2 e2) →
      (p2 = pos → fi2.nullable = true) ∧
      (pos < p2 → fi2.chars.contains (byteAt input pos) = true)) :
    ∀ (cs : List Expression) (acc fi : FirstInfo)
      (nodes : List (Option ASTNode)) (mat : List Char)
      (nodes2 : List (Option ASTNode)) (mat2 : List Char) (p : Nat) (evs : List Event),
      acc.nullable = true →
      seqFirst firstOf cs acc = some fi →
      seqLoop step cs pos nodes mat = some (.ok nodes2 mat2 p, evs) →
      (p = pos → fi.nullable = true) ∧
      (pos < p → fi.chars.contains (byteAt input pos) = true) := by
  intro cs
  induction cs with
  | nil =>
    intro acc fi nodes mat nodes2 mat2 p evs hacc hf h
    simp only [seqFirst, Option.some.injEq] at hf
    simp only [seqLoop, Option.some.injEq, Prod.mk.injEq, SeqOut.ok.injEq] at h
    obtain ⟨⟨-, -, hp⟩, -⟩ := h
    subst hp
    exact ⟨fun _ => hf ▸ hacc, fun hlt => absurd hlt (lt_irrefl pos)⟩
  | cons c cs ih =>
    intro acc fi nodes mat nodes2 mat2 p evs hacc hf h
    rw [seqFirst] at hf
    rw [seqLoop] at h
    cases hfi : firstOf c with
    | none => rw [hfi] at hf; simp at hf
    | some cf =>
      rw [hfi] at hf
      dsimp only at hf
      cases hstep : step c pos with
      | none => rw [hstep] at h; simp at h
      | some r =>
        rw [hstep] at h
        cases r with
        | fail q e1 => simp at h
        | ok n1 p1 e1 =>
          dsimp only at h
          cases hrec : seqLoop step cs p1 (nodes ++ [n1]) (mat ++ ASTNode.matchedO n1) with
          | none => rw [hrec] at h; simp at h
          | some pr =>
            obtain ⟨r2, evs2⟩ := pr
            rw [hrec] at h
            simp only [Option.some.injEq, Prod.mk.injEq] at h
            obtain ⟨hr2, -⟩ := h
            subst hr2
            have hsp1 := (hspan c pos hpos).1 n1 p1 e1 hstep
            have hchild := hIH c cf n1 p1 e1 hfi hstep
            rcases Nat.lt_or_ge pos p1 with hlt1 | hge1
            · -- the head consumed: its FIRST byte is in the merged set
              have htail := seqLoop_span (fun c2 q hq => hspan c2 q hq) cs p1
                (nodes ++ [n1]) (mat ++ ASTNode.matchedO n1) hsp1.2.1
                nodes2 mat2 p evs2 hrec
              have hcb : cf.chars.contains (byteAt input pos) = true := hchild.2 hlt1
              have hmerge : (mergeFirst acc cf).chars.contains (byteAt input pos) = true :=
                contains_append_right hcb
              have hppos : pos < p := by omega
              refine ⟨fun hp => absurd hp (by omega), fun _ => ?_⟩
              by_cases hn : cf.nullable = true
              · rw [if_pos hn] at hf
                exact seqFirst_acc_sub cs _ fi hf _ hmerge
              · rw [if_neg hn] at hf
                simp only [Option.some.injEq] at hf
                rw [← hf]
                exact hmerge
            · -- the head matched empty: it is nullable and the tail decides
              have hp1 : p1 = pos := by omega
              subst hp1
              have hn : cf.nullable = true := hchild.1 rfl
              rw [if_pos hn] at hf
              exact ih (mergeFirst acc cf) fi (nodes ++ [n1])
                (mat ++ ASTNode.matchedO n1) nodes2 mat2 p evs2
                (by simp [mergeFirst, hacc]) hf hrec

/-- Soundness of the FIRST analysis: whenever the FIRST computation of an
expression yields a result, a match of that expression that consumes
nothing implies the expression is nullable, and a match that consumes
at least one byte implies the first consumed byte lies in the FIRST set. -/
theorem firstSound (g : Grammar) (input : List Char) :
    ∀ (pf : Nat) (e : Expression) (pos : Nat) (ff : Nat) (fi : FirstInfo)
      (n : Option ASTNode) (p : Nat) (evs : List Event),
      pos ≤ input.length →
      computeFirst g ff e = some fi →
      parseExpr g pf (some e) input pos = some (.ok n p evs) →
      (p = pos → fi.nullable = true) ∧
      (pos < p → fi.chars.contains (byteAt input pos) = true) := by
  intro pf
  induction pf with
  | zero =>
    intro e pos ff fi n p evs hpos hcf hp
    simp [parseExpr] at hp
  | succ pf ih =>
    intro e pos ff fi n p evs hpos hcf hp
    cases ff with
    | zero => simp [computeFirst] at hcf
    | succ ff =>
      cases e with
      | terminal v =>
        rw [computeFirst] at hcf
        rw [parseExpr] at hp
        by_cases hemp : (stripQuotes v).isEmpty = true
        · rw [if_pos (by simpa [List.isEmpty_iff_length_eq_zero] using hemp)] at hp
          simp at hp
        · rw [if_neg hemp] at hcf
          rw [if_neg (by simpa [List.isEmpty_iff_length_eq_zero] using hemp)] at hp
          by_cases hm : pos + (stripQuotes v).length ≤ input.length ∧
              (input.drop pos).take (stripQuotes v).length = stripQuotes v
          · rw [if_pos hm] at hp
            simp only [Option.some.injEq, Outcome.ok.injEq] at hp
            obtain ⟨-, hpp, -⟩ := hp
            simp only [Option.some.injEq] at hcf
            have hlen : (stripQuotes v).length ≠ 0 := by
              simpa [List.isEmpty_iff_length_eq_zero] using hemp
            constructor
            · intro hppos
              omega
            · intro hlt
              cases hl : stripQuotes v with
              | nil => exact absurd (by rw [hl]; rfl) hlen
              | cons ch rest =>
                have hq : input.get? pos = some ch := by
                  have h1 : ((input.drop pos).take (stripQuotes v).length).get? 0 =
                      (input.drop pos).get? 0 :=
                    List.get?_take (by omega)
                  rw [hm.2, hl] at h1
                  have h3 : ((ch : Char) :: rest).get? 0 = some ch := rfl
                  rw [h3] at h1
                  have h2 : (input.drop pos).get? 0 = input.get? (pos + 0) :=
                    List.get?_drop input pos 0
                  simp only [Nat.add_zero] at h2
                  rw [h2] at h1
                  exact h1.symm
                have hbyte : byteAt input pos = charByte ch := by
                  unfold byteAt charAt
                  rw [hq]
                  rfl
                rw [← hcf, hbyte, hl]
                simp [List.contains, List.elem]
          · rw [if_neg hm] at hp
            simp at hp
      | symbol name =>
        rw [computeFirst] at hcf
        rw [parseExpr] at hp
        cases hr : getRule g name with
        | none =>
          rw [hr] at hp
          simp at hp
        | some r =>
          rw [hr] at hcf hp
          dsimp only at hcf hp
          cases hroot : r.rootExpr with
          | none =>
            rw [hroot] at hp
            cases pf with
            | zero => simp [parseExpr] at hp
            | succ pf2 =>
              rw [parseExpr] at hp
              simp at hp
          | some root =>
            rw [hroot] at hcf hp
            cases hsub : parseExpr g pf (some root) input pos with
            | none => rw [hsub] at hp; simp at hp
            | some r2 =>
              rw [hsub] at hp
              cases r2 with
              | fail q e2 => simp at hp
              | ok child p2 e2 =>
                simp only [Option.some.injEq, Outcome.ok.injEq] at hp
                obtain ⟨-, hpp, -⟩ := hp
                subst hpp
                exact ih root pos ff fi child p2 e2 hpos hcf hsub
      | seq cs =>
        rw [computeFirst] at hcf
        rw [parseExpr] at hp
        cases hsub : seqLoop (fun c q => parseExpr g pf (some c) input q) cs pos [] [] with
        | none => rw [hsub] at hp; simp at hp
        | some pr =>
          obtain ⟨r2, evs2⟩ := pr
          rw [hsub] at hp
          cases r2 with
          | fail => simp at hp
          | ok nodes mat p2 =>
            simp only [Option.some.injEq, Outcome.ok.injEq] at hp
            obtain ⟨-, hpp, -⟩ := hp
            subst hpp
            exact seqFirst_sound (fun c q hq => parse_span g input pf (some c) q hq)
              hpos
              (fun c fi2 n2 p2c e2 hf2 hs2 => ih c pos ff fi2 n2 p2c e2 hpos hf2 hs2)
              cs ⟨[], true⟩ fi [] [] nodes mat p2 evs2 rfl hcf hsub
      | alt cs =>
        rw [computeFirst] at hcf
        rw [parseExpr] at hp
        cases hsub : altLoop (computeFirst g pf) (fun c? => parseExpr g pf c? input pos)
            (decide (pos < input.length)) (byteAt input pos) cs ⟨none, pos, false⟩ with
        | none => rw [hsub] at hp; simp at hp
        | some pr =>
          obtain ⟨st, evs2⟩ := pr
          rw [hsub] at hp
          dsimp only at hp
          by_cases hany : st.anyMatch = true
          · rw [if_pos hany] at hp
            simp only [Option.some.injEq, Outcome.ok.injEq] at hp
            obtain ⟨-, hpp, -⟩ := hp
            subst hpp
            obtain ⟨hdef, hle, hub, hanyC, hwin⟩ := altLoop_char cs _ st evs2 hsub
            dsimp only at hle hub hanyC hwin
            constructor
            · intro hppos
              rcases hanyC hany with h2 | ⟨c?, hc?, c, p', hc, hatt, hok⟩
              · simp at h2
              · subst hc
                have hmem : some c ∈ cs := hc?
                obtain ⟨cf, hcf2, hsubc, hnulc⟩ :=
                  altFirst_member cs ⟨[], false⟩ fi hcf c hmem
                obtain ⟨n2, e2, hok2⟩ := hok
                have hsp := (parse_span g input pf (some c) pos hpos).1 n2 p' e2 hok2
                have hub2 := hub (some c) hc? c p' rfl hatt ⟨n2, e2, hok2⟩
                have hp' : p' = pos := by omega
                have hnul := (ih c pos ff cf n2 p' e2 hpos hcf2 hok2).1 hp'
                exact hnulc hnul
            · intro hlt
              rcases hwin with ⟨hpe, -⟩ | ⟨-, l1, w, l2, bn, e2, hsplit, hatt, hstep, hbest, -⟩
              · omega
              · have hmem : some w ∈ cs := by
                  rw [hsplit]
                  exact List.mem_append_right l1 (List.mem_cons_self _ _)
                obtain ⟨cf, hcf2, hsubc, -⟩ :=
                  altFirst_member cs ⟨[], false⟩ fi hcf w hmem
                have := (ih w pos ff cf bn st.bestPos e2 hpos hcf2 hstep).2 hlt
                exact hsubc _ this
          · rw [if_neg hany] at hp
            simp at hp
      | opt child =>
        rw [computeFirst.eq_def] at hcf
        dsimp only at hcf
        rw [parseExpr] at hp
        cases child with
        | none => simp at hcf
        | some c =>
          dsimp only at hcf
          cases hcc : computeFirst g ff c with
          | none => rw [hcc] at hcf; simp at hcf
          | some cf =>
            rw [hcc] at hcf
            simp only [Option.some.injEq] at hcf
            cases hsub : parseExpr g pf (some c) input pos with
            | none => rw [hsub] at hp; simp at hp
            | some r2 =>
              rw [hsub] at hp
              cases r2 with
              | fail q e2 =>
                simp only [Option.some.injEq, Outcome.ok.injEq] at hp
                obtain ⟨-, hpp, -⟩ := hp
                subst hpp
                exact ⟨fun _ => by rw [← hcf], fun hlt => absurd hlt (lt_irrefl pos)⟩
              | ok inside p2 e2 =>
                simp only [Option.some.injEq, Outcome.ok.injEq] at hp
                obtain ⟨-, hpp, -⟩ := hp
                subst hpp
                refine ⟨fun _ => by rw [← hcf], fun hlt => ?_⟩
                have := (ih c pos ff cf inside p2 e2 hpos hcc hsub).2 hlt
                rw [← hcf]
                exact contains_append_right this
      | rep child =>
        rw [computeFirst.eq_def] at hcf
        dsimp only at hcf
        rw [parseExpr] at hp
        cases child with
        | none => simp at hcf
        | some c =>
          dsimp only at hcf
          cases hcc : computeFirst g ff c with
          | none => rw [hcc] at hcf; simp at hcf
          | some cf =>
            rw [hcc] at hcf
            simp only [Option.some.injEq] at hcf
            cases hsub : repLoop (fun q => parseExpr g pf (some c) input q)
                input.length pf pos [] [] with
            | none => rw [hsub] at hp; simp at hp
            | some pr =>
              obtain ⟨⟨items, mat, p2⟩, evs2⟩ := pr
              rw [hsub] at hp
              simp only [Option.some.injEq, Outcome.ok.injEq] at hp
              obtain ⟨-, hpp, -⟩ := hp
              subst hpp
              refine ⟨fun _ => by rw [← hcf], fun hlt => ?_⟩
              cases pf with
              | zero => simp [repLoop] at hsub
              | succ pf2 =>
                rw [repLoop] at hsub
                cases hstep : parseExpr g (pf2 + 1) (some c) input pos with
                | none => rw [hstep] at hsub; simp at hsub
                | some r3 =>
                  rw [hstep] at hsub
                  cases r3 with
                  | fail q e3 =>
                    simp only [Option.some.injEq, Prod.mk.injEq] at hsub
                    obtain ⟨⟨-, -, hq⟩, -⟩ := hsub
                    omega
                  | ok it q e3 =>
                    dsimp only at hsub
                    cases it with
                    | none =>
                      simp only [Option.some.injEq, Prod.mk.injEq] at hsub
                      obtain ⟨⟨-, -, hq⟩, -⟩ := hsub
                      have hsp := (parse_span g input (pf2 + 1) (some c) pos hpos).1
                        none q e3 hstep
                      have : slice input pos q = [] := hsp.2.2.symm
                      have hqp : q = pos := by
                        rcases Nat.lt_or_ge pos q with h2 | h2
                        · exfalso
                          have hmat := hsp.2.2
                          unfold slice at hmat
                          simp only [ASTNode.matchedO] at hmat
                          have hlen : ((input.drop pos).take (q - pos)).length = 0 := by
                            rw [← hmat]
                            rfl
                          rw [List.length_take, List.length_drop] at hlen
                          omega
                        · omega
                      omega
                    | some n1 =>
                      dsimp only at hsub
                      by_cases hempty : n1.matched.isEmpty = true
                      · rw [if_pos hempty] at hsub
                        simp only [Option.some.injEq, Prod.mk.injEq] at hsub
                        obtain ⟨⟨-, -, hq⟩, -⟩ := hsub
                        omega
                      · have hsp := (parse_span g input (pf2 + 1) (some c) pos hpos).1
                          (some n1) q e3 hstep
                        have hqlt : pos < q := by
                          rcases Nat.lt_or_ge pos q with h2 | h2
                          · exact h2
                          · exfalso
                            have hqp : q = pos := by omega
                            have hmat := hsp.2.2
                            rw [hqp, slice_refl] at hmat
                            have : n1.matched = [] := hmat
                            simp [this] at hempty
                        have := (ih c pos ff cf (some n1) q e3 hpos hcc hstep).2 hqlt
                        rw [← hcf]
                        exact contains_append_right this
      | charRange a b =>
        rw [computeFirst] at hcf
        simp only [Option.some.injEq] at hcf
        rw [parseExpr] at hp
        by_cases hend : input.length ≤ pos
        · rw [if_pos hend] at hp
          simp at hp
        · rw [if_neg hend] at hp
          by_cases hin : a ≤ byteAt input pos ∧ byteAt input pos ≤ b
          · rw [if_pos hin] at hp
            simp only [Option.some.injEq, Outcome.ok.injEq] at hp
            obtain ⟨-, hpp, -⟩ := hp
            constructor
            · intro hppos
              omega
            · intro hlt
              rw [← hcf]
              show (rangeChars a b).contains (byteAt input pos) = true
              rw [List.elem_iff]
              unfold rangeChars
              rw [List.mem_range'_1]
              omega
          · rw [if_neg hin] at hp
            simp at hp
      | charClass bm =>
        rw [computeFirst] at hcf
        simp only [Option.some.injEq] at hcf
        rw [parseExpr] at hp
        by_cases hend : input.length ≤ pos
        · rw [if_pos hend] at hp
          simp at hp
        · rw [if_neg hend] at hp
          by_cases hin : bm (byteAt input pos) = true
          · rw [if_pos hin] at hp
            simp only [Option.some.injEq, Outcome.ok.injEq] at hp
            obtain ⟨-, hpp, -⟩ := hp
            constructor
            · intro hppos
              omega
            · intro hlt
              rw [← hcf]
              show ((List.range 256).filter bm).contains (byteAt input pos) = true
              rw [List.elem_iff]
              rw [List.mem_filter, List.mem_range]
              exact ⟨Nat.mod_lt _ (by omega), hin⟩
          · rw [if_neg hin] at hp
            simp at hp

theorem altSkip_of_nullable {hc : Bool} {look : Nat} {fi : FirstInfo}
    (h : fi.nullable = true) : altSkip hc look fi = false := by
  unfold altSkip
  cases hc <;> simp [h]

theorem altSkip_of_contains {look : Nat} {fi : FirstInfo}
    (h : fi.chars.contains look = true) : altSkip true look fi = false := by
  unfold altSkip
  have hne : fi.chars.isEmpty = false := by
    cases hl : fi.chars with
    | nil => rw [hl] at h; simp [List.contains, List.elem] at h
    | cons a l => rfl
  have hm : look ∈ fi.chars := by simpa using h
  simp [h, hne, hm]

/-- A branch the FIRST test skips can never match: not at the current
position with zero consumption (it is not nullable) and not with positive
consumption (the lookahead byte is outside its FIRST set). -/
theorem altSkip_no_match (g : Grammar) (input : List Char) {pf ff pos : Nat}
    {fi : FirstInfo} {c : Expression}
    (hpos : pos ≤ input.length)
    (hfi : computeFirst g ff c = some fi)
    (hskip : altSkip (decide (pos < input.length)) (byteAt input pos) fi = true) :
    ∀ n' p' e', ¬(parseExpr g pf (some c) input pos = some (.ok n' p' e')) := by
  intro n' p' e' hok
  have hfs := firstSound g input pf c pos ff fi n' p' e' hpos hfi hok
  have hsp := (parse_span g input pf (some c) pos hpos).1 n' p' e' hok
  rcases Nat.lt_or_ge pos p' with hlt | hge
  · have hcin := hfs.2 hlt
    have hhc : decide (pos < input.length) = true := by
      simp only [decide_eq_true_eq]
      omega
    rw [hhc] at hskip
    rw [altSkip_of_contains hcin] at hskip
    cases hskip
  · have hpe : p' = pos := by omega
    have hnul := hfs.1 hpe
    rw [altSkip_of_nullable hnul] at hskip
    cases hskip

/-- C2 counterexample: an Alternative whose only branch matches zero
bytes succeeds, but the produced node is null — there is no alt parent
carrying the chosen branch as its sole child. -/
theorem c2_counterexample :
    parseExpr [] 5 (some (.alt [some (.opt (some (.terminal "x".toList)))]))
      "z".toList 0 = some (.ok none 0 [(0, termDesc "x".toList)]) := rfl

/-- C2 amended: when the alternative matcher succeeds, the committed end
position bounds the consumption of every branch run from the same
position, the winner is the earliest branch attaining that position, and
the result is an alt parent around the winner when the winning
consumption is positive — but a null node when it is zero. -/
theorem c2_amended (g : Grammar) (f : Nat) (cs : List (Option Expression))
    (input : List Char) (pos : Nat) (node : Option ASTNode) (p : Nat) (evs : List Event)
    (hpos : pos ≤ input.length)
    (h : parseExpr g (f + 1) (some (.alt cs)) input pos = some (.ok node p evs)) :
    pos ≤ p ∧
    (∀ c? ∈ cs, ∀ n' p' e', parseExpr g f c? input pos = some (.ok n' p' e') → p' ≤ p) ∧
    (pos < p → ∃ l1 c l2 bn e, cs = l1 ++ some c :: l2 ∧
      parseExpr g f (some c) input pos = some (.ok bn p e) ∧
      node = some (.mk altSym (ASTNode.matchedO bn) [bn]) ∧
      (∀ c'? ∈ l1, ∀ n2 p2 e2,
        parseExpr g f c'? input pos = some (.ok n2 p2 e2) → p2 < p)) ∧
    (p = pos → node = none) := by
  rw [parseExpr] at h
  cases hsub : altLoop (computeFirst g f) (fun c? => parseExpr g f c? input pos)
      (decide (pos < input.length)) (byteAt input pos) cs ⟨none, pos, false⟩ with
  | none => rw [hsub] at h; simp at h
  | some pr =>
    obtain ⟨st, evs2⟩ := pr
    rw [hsub] at h
    dsimp only at h
    by_cases hany : st.anyMatch = true
    · rw [if_pos hany] at h
      simp only [Option.some.injEq, Outcome.ok.injEq] at h
      obtain ⟨hn, hpp, -⟩ := h
      subst hn
      subst hpp
      obtain ⟨hdef, hle, hub, -, hwin⟩ := altLoop_char cs _ st evs2 hsub
      dsimp only at hle hub hwin
      refine ⟨hle, ?_, ?_, ?_⟩
      · intro c? hc? n' p' e' hok'
        obtain ⟨c, hceq, fi, hfi⟩ := hdef c? hc?
        subst hceq
        by_cases hskipb : altSkip (decide (pos < input.length)) (byteAt input pos) fi = true
        · exact absurd hok' (altSkip_no_match g input hpos hfi hskipb n' p' e')
        · exact hub (some c) hc? c p' rfl ⟨fi, hfi, by simpa using hskipb⟩
            ⟨n', e', hok'⟩
      · intro hlt
        rcases hwin with ⟨hpe, -⟩ | ⟨-, l1, w, l2, bn, e, hsplit, -, hstep, hbest, hpre⟩
        · omega
        · refine ⟨l1, w, l2, bn, e, hsplit, hstep, hbest, ?_⟩
          intro c'? hmem' n2 p2 e2 hok2
          have hmemcs : c'? ∈ cs := by
            rw [hsplit]
            exact List.mem_append_left _ hmem'
          obtain ⟨c', hceq, fi', hfi'⟩ := hdef c'? hmemcs
          subst hceq
          by_cases hskipb :
              altSkip (decide (pos < input.length)) (byteAt input pos) fi' = true
          · exact absurd hok2 (altSkip_no_match g input hpos hfi' hskipb n2 p2 e2)
          · exact hpre (some c') hmem' c' p2 rfl ⟨fi', hfi', by simpa using hskipb⟩
              ⟨n2, e2, hok2⟩
      · intro hpe
        rcases hwin with ⟨-, hb⟩ | ⟨hlt, -⟩
        · exact hb
        · omega
    · rw [if_neg hany] at h
      simp at h

/-- The branches of the witness alternation: a one-byte and a two-byte
terminal sharing a prefix. -/
def cs2w : List (Option Expression) :=
  [some (.terminal "A".toList), some (.terminal "AB".toList)]

theorem c2_witness :
    0 ≤ "AB".toList.length ∧
    parseExpr [] 4 (some (.alt cs2w)) "AB".toList 0 =
      some (.ok (some (.mk altSym "AB".toList [some (.mk "AB".toList "AB".toList [])]))
        2 []) ∧
    (0 : Nat) ≤ 2 := by
  refine ⟨by decide, rfl, ?_⟩
  exact (c2_amended [] 3 cs2w "AB".toList 0 _ 2 [] (by decide) rfl).1

/-- Spec-side reference for the refinement comparison: the alternation
loop with FIRST-pruning disabled.  Every branch is attempted (the FIRST
information is still computed, as the C++ does before its skip test);
everything else is altLoop verbatim. -/
def altLoopNoSkip (firstOf : Expression → Option FirstInfo)
    (step : Option Expression → Option Outcome) :
    List (Option Expression) → AltSt → Option (AltSt × List Event)
  | [], st => some (st, [])
  | none :: _, _ => none
  | some c :: cs, st =>
    match firstOf c with
    | none => none
    | some _ =>
      match step (some c) with
      | none => none
      | some (.ok bn p evs) =>
        let st' : AltSt :=
          if st.bestPos < p then
            ⟨some (.mk altSym (ASTNode.matchedO bn) [bn]), p, true⟩
          else ⟨st.best, st.bestPos, true⟩
        match altLoopNoSkip firstOf step cs st' with
        | none => none
        | some (stE, evs2) => some (stE, evs ++ evs2)
      | some (.fail _ evs) =>
        match altLoopNoSkip firstOf step cs st with
        | none => none
        | some (stE, evs2) => some (stE, evs ++ evs2)

/-- The pruned loop reaches exactly the state of the unpruned loop: a
skipped branch can only have failed (altSkip_no_match), and a failing
branch never changes the accumulator — only the recorded error events can
differ. -/
theorem altLoop_eq_noSkip (g : Grammar) (input : List Char) (f pos : Nat)
    (hpos : pos ≤ input.length) :
    ∀ cs st st2 evs2,
      altLoopNoSkip (computeFirst g f) (fun c? => parseExpr g f c? input pos) cs st
        = some (st2, evs2) →
      ∃ evs, altLoop (computeFirst g f) (fun c? => parseExpr g f c? input pos)
        (decide (pos < input.length)) (byteAt input pos) cs st = some (st2, evs) := by
  intro cs
  induction cs with
  | nil =>
    intro st st2 evs2 hns
    rw [altLoopNoSkip] at hns
    simp only [Option.some.injEq, Prod.mk.injEq] at hns
    exact ⟨[], by rw [altLoop, hns.1]⟩
  | cons c? cs ih =>
    intro st st2 evs2 hns
    cases c? with
    | none => rw [altLoopNoSkip] at hns; simp at hns
    | some c =>
      rw [altLoopNoSkip] at hns
      cases hfi : computeFirst g f c with
      | none => rw [hfi] at hns; simp at hns
      | some fi =>
        rw [hfi] at hns
        dsimp only at hns
        cases hstep : parseExpr g f (some c) input pos with
        | none => rw [hstep] at hns; simp at hns
        | some out =>
          rw [hstep] at hns
          cases out with
          | ok bn p evs1 =>
            dsimp only at hns
            cases hrec : altLoopNoSkip (computeFirst g f)
                (fun c? => parseExpr g f c? input pos) cs
                (if st.bestPos < p then
                  ⟨some (.mk altSym (ASTNode.matchedO bn) [bn]), p, true⟩
                else ⟨st.best, st.bestPos, true⟩) with
            | none => rw [hrec] at hns; simp at hns
            | some pr =>
              obtain ⟨stE, evsR⟩ := pr
              rw [hrec] at hns
              simp only [Option.some.injEq, Prod.mk.injEq] at hns
              obtain ⟨hstE, -⟩ := hns
              rw [← hstE]
              obtain ⟨evsR2, hal⟩ := ih _ stE evsR hrec
              by_cases hskip :
                  altSkip (decide (pos < input.length)) (byteAt input pos) fi = true
              · exact absurd hstep
                  (altSkip_no_match g input hpos hfi hskip bn p evs1)
              · refine ⟨evs1 ++ evsR2, ?_⟩
                rw [altLoop, hfi]
                dsimp only
                rw [if_neg hskip, hstep]
                dsimp only
                rw [hal]
          | fail fp evs1 =>
            dsimp only at hns
            cases hrec : altLoopNoSkip (computeFirst g f)
                (fun c? => parseExpr g f c? input pos) cs st with
            | none => rw [hrec] at hns; simp at hns
            | some pr =>
              obtain ⟨stE, evsR⟩ := pr
              rw [hrec] at hns
              simp only [Option.some.injEq, Prod.mk.injEq] at hns
              obtain ⟨hstE, -⟩ := hns
              rw [← hstE]
              obtain ⟨evsR2, hal⟩ := ih st stE evsR hrec
              by_cases hskip :
                  altSkip (decide (pos < input.length)) (byteAt input pos) fi = true
              · refine ⟨evsR2, ?_⟩
                rw [altLoop, hfi]
                dsimp only
                rw [if_pos hskip]
                exact hal
              · refine ⟨evs1 ++ evsR2, ?_⟩
                rw [altLoop, hfi]
                dsimp only
                rw [if_neg hskip, hstep]
                dsimp only
                rw [hal]

/-- C3: FIRST-pruning does not change the observable alternation result.
If the alternation loop with every branch re-enabled reaches a final
state, then the actual matcher run over the same Alternative commits to
exactly that state: the same chosen winner node, the same end position
and the same success/failure outcome (only the recorded error events may
differ, since skipped branches never report their failure). -/
theorem c3_first_pruning_sound (g : Grammar) (f : Nat)
    (cs : List (Option Expression)) (input : List Char) (pos : Nat)
    (st2 : AltSt) (evs2 : List Event)
    (hpos : pos ≤ input.length)
    (hns : altLoopNoSkip (computeFirst g f) (fun c? => parseExpr g f c? input pos)
      cs ⟨none, pos, false⟩ = some (st2, evs2)) :
    ∃ evs,
      parseExpr g (f + 1) (some (.alt cs)) input pos =
        some (if st2.anyMatch then .ok st2.best st2.bestPos evs
          else .fail pos evs) := by
  obtain ⟨evs, hal⟩ :=
    altLoop_eq_noSkip g input f pos hpos cs ⟨none, pos, false⟩ st2 evs2 hns
  refine ⟨evs, ?_⟩
  rw [parseExpr, hal]
  dsimp only
  by_cases h : st2.anyMatch = true
  · rw [if_pos h, if_pos h]
  · rw [if_neg h, if_neg h]

/-- The branches of the C3 witness alternation: on input B the first
branch is skipped by the FIRST test (its FIRST set is the byte of A). -/
def cs3w : List (Option Expression) :=
  [some (.terminal "A".toList), some (.terminal "B".toList)]

theorem c3_witness :
    0 ≤ "B".toList.length ∧
    altLoopNoSkip (computeFirst [] 3) (fun c? => parseExpr [] 3 c? "B".toList 0)
      cs3w ⟨none, 0, false⟩ =
      some (⟨some (.mk altSym "B".toList [some (.mk "B".toList "B".toList [])]), 1, true⟩,
        [(0, termDesc "A".toList)]) ∧
    (∃ evs, parseExpr [] 4 (some (.alt cs3w)) "B".toList 0 =
      some (.ok (some (.mk altSym "B".toList [some (.mk "B".toList "B".toList [])]))
        1 evs)) := by
  refine ⟨by decide, rfl, ?_⟩
  exact c3_first_pruning_sound [] 3 cs3w "B".toList 0
    ⟨some (.mk altSym "B".toList [some (.mk "B".toList "B".toList [])]), 1, true⟩
    [(0, termDesc "A".toList)] (by decide) rfl

end BNF
